import Mathlib

/-!
# Langston's ant (`ant.c`): a shallow embedding and its verified properties

The program keeps a flat buffer of 32-bit cells (`grid`), a constant rule string
(`turns`) and a small array of ants, each an `(x, y, dir)` record.  One tick of one
ant is `update_ant`.

Conventions of the embedding

* The compile-time constants `WIDTH`, `HEIGHT` and `turns` are the fields of a
  `Config`; `srcConfig` is the configuration the source is compiled with.
* `uint32_t` values are `Nat`, with an explicit `% 2 ^ 32` where C wraps.
  `int32_t` values are `Int`; an operation whose mathematical result leaves the
  `int32_t` range is undefined in C and yields `none` here (`i32`).
* The 2-bit bit-field `dir` is a `Nat` that is reduced `% 4` at every store.
* The buffer is a `List Nat`; a read or write outside it yields `none`.
* A finite `double` is represented by the rational number it denotes.  An arithmetic
  operation on `double`s is the exact operation followed by `fl`, the rounding to the
  nearest `double` with a tie to the even mantissa (binary64: 53 bits, subnormals
  below `2 ^ -1022`).  The conversion to `int32_t` truncates toward zero and is
  undefined in C when the truncated value does not fit (`cast_i32`).
-/

namespace LangstonAnt

/-! ## Constants -/

/-- Compile-time constants of `ant.c`: `WIDTH`, `HEIGHT` and the rule string `turns`. -/
structure Config where
  W : Nat
  H : Nat
  turns : List Char
deriving DecidableEq, Repr

/-- The value of `n_turns`: the number of characters of `turns` (the terminator excluded). -/
def Config.n_turns (c : Config) : Nat := c.turns.length

/-- The configuration of the source: a 1920 x 1080 grid and `turns = "RLRL"`. -/
def srcConfig : Config := ⟨1920, 1080, ['R', 'L', 'R', 'L']⟩

/-- The scenario of the specification: a 10 x 10 grid and the rule string `RLRL`. -/
def scenarioConfig : Config := ⟨10, 10, ['R', 'L', 'R', 'L']⟩

/-- The boundary example of the specification: a grid 20 cells wide. -/
def boundaryConfig : Config := ⟨20, 20, ['R', 'L', 'R', 'L']⟩

/-- Constants for which no operation of `update_ant` is undefined: positive dimensions,
`x % WIDTH + WIDTH` and `WIDTH * HEIGHT` inside `int`, and a non-empty rule string. -/
def Config.wf (c : Config) : Prop :=
  0 < c.W ∧ c.W ≤ 2 ^ 30 ∧ 0 < c.H ∧ c.H ≤ 2 ^ 30 ∧ c.W * c.H < 2 ^ 31 ∧
    0 < c.n_turns ∧ c.n_turns < 2 ^ 32

instance (c : Config) : Decidable c.wf := by delta Config.wf; infer_instance

/-! ## Machine integers -/

/-- An `int32_t` result: `none` when the value does not fit (signed overflow). -/
def i32 (v : Int) : Option Int :=
  if -2 ^ 31 ≤ v ∧ v < 2 ^ 31 then some v else none

/-- Conversion of an `int32_t` to `uint32_t`. -/
def u32 (v : Int) : Nat := (v % 2 ^ 32).toNat

/-- Conversion of a `double`, given as the rational it denotes, to `int32_t`:
truncation toward zero.  C defines it only when the result fits `int32_t`; `cast_i32` is
the conversion with that check. -/
def trunc32 (q : ℚ) : Int := Int.tdiv q.num q.den

/-- The conversion `(int32_t) d` of C: `none` where it is undefined. -/
def cast_i32 (d : ℚ) : Option Int := i32 (trunc32 d)

/-! ## Arithmetic of `double` -/

/-- The quotient `N / D` rounded to the nearest integer, a tie to the even one. -/
def round_even (N D : Nat) : Nat :=
  let q := N / D
  let r := N % D
  if 2 * r < D then q else if D < 2 * r then q + 1 else if q % 2 = 0 then q else q + 1

/-- The number of halvings that bring `n` below 2, at most `fuel` of them. -/
def halvings : Nat → Nat → Nat
  | 0, _ => 0
  | fuel + 1, n => if 2 ≤ n then halvings fuel (n / 2) + 1 else 0

/-- The position of the leading bit of `n`: the `k` with `2 ^ k <= n < 2 ^ (k + 1)`. -/
def bit_log (n : Nat) : Nat := halvings n n

/-- The binary exponent of a positive fraction `n / d`: the `k` with
`2 ^ k <= n / d < 2 ^ (k + 1)`. -/
def ilog2 (n d : Nat) : Int :=
  let l : Int := (bit_log n : Int) - (bit_log d : Int)
  if (if 0 ≤ l then d * 2 ^ l.toNat ≤ n else d ≤ n * 2 ^ (-l).toNat) then l else l - 1

/-- The fraction `n / d` rounded to `double`: the unit in the last place is `2 ^ e` with
`e = max (k - 52) (-1074)`, `k` the binary exponent of the fraction. -/
def fl_abs (n d : Nat) : ℚ :=
  if n = 0 then 0
  else
    let e : Int := max (ilog2 n d - 52) (-1074)
    if 0 ≤ e then ((round_even n (d * 2 ^ e.toNat) * 2 ^ e.toNat : Nat) : ℚ)
    else ((round_even (n * 2 ^ (-e).toNat) d : Nat) : ℚ) / ((2 ^ (-e).toNat : Nat) : ℚ)

/-- Rounding to `double`: to the nearest value `m * 2 ^ e` with a mantissa `m` of 53 bits
and `e >= -1074`, a tie to the even `m`.  A value beyond the largest `double`, an infinity in
C, stays a finite value outside `int32_t` here. -/
def fl (q : ℚ) : ℚ :=
  if q < 0 then -fl_abs q.num.natAbs q.den else fl_abs q.num.natAbs q.den

/-! ## Colour mapper -/

/-- Body of `rgb` after `normalized` has been computed: the offset `x`, the `switch`
on `normalized >> 8` and the packing of the three channels. -/
def rgb_norm (normalized : Int) : Nat :=
  let x : Nat := u32 normalized &&& 255
  let r : Int := normalized >>> (8 : Nat)
  let ch : Nat × Nat × Nat :=
    if r = 0 then (255, x, 0)
    else if r = 1 then (255 - x, 255, 0)
    else if r = 2 then (0, 255, x)
    else if r = 3 then (0, 255 - x, 255)
    else if r = 4 then (x, 0, 255)
    else if r = 5 then (255, 0, 255 - x)
    else (0, 0, 0)
  (ch.1 <<< 24) ||| (ch.2.1 <<< 16) ||| (ch.2.2 <<< 8)

/-- The `double` that `rgb` converts to `normalized`: `ratio * 256 * 6`, evaluated from
the left, each product rounded.  The parameter `ratio` is a `double`, so the argument is
rounded on entry: at the call in `set_state` this is the rounding of the quotient
`state / (double) n_turns`. -/
def rgb_product (ratio : ℚ) : ℚ := fl (fl (fl ratio * 256) * 6)

/-- Function `rgb`: `normalized = (int32_t)(ratio * 256 * 6)`, then `rgb_norm`. -/
def rgb (ratio : ℚ) : Nat := rgb_norm (trunc32 (rgb_product ratio))

/-! ## Grid -/

/-- The cell buffer, row-major. -/
abbrev Grid := List Nat

/-- The buffer returned by `calloc (WIDTH * HEIGHT, sizeof (uint32_t))`. -/
def zeroGrid (c : Config) : Grid := List.replicate (c.W * c.H) 0

/-- The index `y * WIDTH + x`, computed in `uint32_t`. -/
def cellIndex (c : Config) (x y : Nat) : Nat := (y * c.W + x) % 2 ^ 32

/-- Function `get_state`: the low byte of the cell. -/
def get_state (c : Config) (grid : Grid) (x y : Nat) : Option Nat :=
  (grid[cellIndex c x y]?).map (fun w => w &&& 255)

/-- The word `set_state` leaves in the cell: `state ? rgb (state / (double) n_turns) : 0`,
then `|= state`. -/
def cell_word (c : Config) (state : Nat) : Nat :=
  (if state ≠ 0 then rgb ((state : ℚ) / (c.n_turns : ℚ)) else 0) ||| state

/-- Function `set_state`: writes `cell_word` at `y * WIDTH + x`. -/
def set_state (c : Config) (grid : Grid) (x y state : Nat) : Option Grid :=
  let i := cellIndex c x y
  if i < grid.length then some (grid.set i (cell_word c state)) else none

/-! ## Ant -/

/-- The enumeration `DIR`. -/
inductive DIR where
  | ANTUP
  | ANTRIGHT
  | ANTDOWN
  | ANTLEFT
deriving DecidableEq, Repr

/-- Integer value of an enumerator. -/
def DIR.val : DIR → Nat
  | .ANTUP => 0
  | .ANTRIGHT => 1
  | .ANTDOWN => 2
  | .ANTLEFT => 3

/-- The record `ant`. -/
structure Ant where
  x : Int
  y : Int
  dir : Nat
deriving DecidableEq, Repr

/-- Function `turn_ant`: `self->dir += dir > 1 ? -1 : 1`, stored into two bits. -/
def turn_ant (self : Ant) (dir : DIR) : Ant :=
  { self with dir := (((self.dir : Int) + (if dir.val > 1 then -1 else 1)) % 4).toNat }

/-- Function `move_ant`: one step in the direction of `self->dir`. -/
def move_ant (self : Ant) : Option Ant :=
  if self.dir = DIR.ANTUP.val then (i32 (self.y - 1)).map (fun v => { self with y := v })
  else if self.dir = DIR.ANTRIGHT.val then (i32 (self.x + 1)).map (fun v => { self with x := v })
  else if self.dir = DIR.ANTDOWN.val then (i32 (self.y + 1)).map (fun v => { self with y := v })
  else if self.dir = DIR.ANTLEFT.val then (i32 (self.x - 1)).map (fun v => { self with x := v })
  else some self

/-- The expression `(v % D + D) % D` of `update_ant`, `%` being C's truncating
remainder; `D` is `WIDTH` or `HEIGHT`. -/
def wrap (D v : Int) : Option Int :=
  if D = 0 then none
  else (i32 (Int.tmod v D + D)).map (fun s => Int.tmod s D)

/-- The `switch (turns[state])` of `update_ant`. -/
def turn_symbol (self : Ant) (t : Char) : Ant :=
  if t = 'F' then self
  else if t = 'B' then { self with dir := (self.dir + 2) % 4 }
  else turn_ant self (if t = 'L' then DIR.ANTRIGHT else DIR.ANTLEFT)

/-- Function `update_ant`: one tick of one ant. -/
def update_ant (c : Config) (self : Ant) (grid : Grid) : Option (Ant × Grid) :=
  (get_state c grid (u32 self.x) (u32 self.y)).bind fun state0 =>
  if c.n_turns = 0 then none else
  let state := state0 % c.n_turns
  (c.turns[state]?).bind fun t =>
  let self1 := turn_symbol self t
  (set_state c grid (u32 self1.x) (u32 self1.y) (((state + 1) % 2 ^ 32) % c.n_turns)).bind
    fun grid1 =>
  (move_ant self1).bind fun self2 =>
  (wrap c.W self2.x).bind fun x =>
  (wrap c.H self2.y).bind fun y =>
  some ({ self2 with x := x, y := y }, grid1)

/-! ## Driver -/

/-- The inner loop of `main`: `for (i = 0; i < N_ANTS; ++i) update_ant (&ants[i], grid)`. -/
def update_ants (c : Config) : List Ant → Grid → Option (List Ant × Grid)
  | [], grid => some ([], grid)
  | a :: rest, grid =>
    (update_ant c a grid).bind fun r =>
    (update_ants c rest r.2).bind fun rs =>
    some (r.1 :: rs.1, rs.2)

/-- The outer loop of `main` run for `n` iterations of `j`. -/
def run (c : Config) : Nat → List Ant → Grid → Option (List Ant × Grid)
  | 0, ants, grid => some (ants, grid)
  | n + 1, ants, grid =>
    (update_ants c ants grid).bind fun r => run c n r.1 r.2

/-- A schedule of ticks: each listed ant is ticked once, in order, on the shared grid. -/
def tick_seq (c : Config) : List Ant → Grid → Option Grid
  | [], grid => some grid
  | a :: rest, grid => (update_ant c a grid).bind fun r => tick_seq c rest r.2

/-! ## Predicates -/

/-- The displacement `(dx, dy)` of a heading: Up `(0,-1)`, Right `(1,0)`, Down `(0,1)`,
Left `(-1,0)`; a value that is no heading displaces nothing. -/
def dxy (h : Nat) : Int × Int :=
  if h = 0 then (0, -1) else if h = 1 then (1, 0) else if h = 2 then (0, 1)
  else if h = 3 then (-1, 0) else (0, 0)

/-- The toroidal neighbour: the position displaced by `dxy` of the heading and reduced
modulo the dimensions (mathematical, non-negative remainder); the heading is kept. -/
def neighbour (c : Config) (a : Ant) : Ant :=
  ⟨(a.x + (dxy a.dir).1) % c.W, (a.y + (dxy a.dir).2) % c.H, a.dir⟩

/-- The ant stands on a cell of the grid. -/
def Ant.inBounds (c : Config) (a : Ant) : Prop :=
  0 ≤ a.x ∧ a.x < c.W ∧ 0 ≤ a.y ∧ a.y < c.H

instance (c : Config) (a : Ant) : Decidable (a.inBounds c) := by
  delta Ant.inBounds; infer_instance

/-- The invariant of an ant: on the grid and heading in `[0,4)`. -/
def Ant.ok (c : Config) (a : Ant) : Prop := a.inBounds c ∧ a.dir < 4

instance (c : Config) (a : Ant) : Decidable (a.ok c) := by
  delta Ant.ok; infer_instance

/-- The buffer has `WIDTH * HEIGHT` cells. -/
def Grid.wf (c : Config) (g : Grid) : Prop := g.length = c.W * c.H

instance (c : Config) (g : Grid) : Decidable (Grid.wf c g) := by
  delta Grid.wf; infer_instance

/-- Red channel of a packed word: bits 24-31. -/
def chan_red (w : Nat) : Nat := (w >>> 24) &&& 255

/-- Green channel of a packed word: bits 16-23. -/
def chan_grn (w : Nat) : Nat := (w >>> 16) &&& 255

/-- Blue channel of a packed word: bits 8-15. -/
def chan_blu (w : Nat) : Nat := (w >>> 8) &&& 255

/-- The body of the inner loop of `main`, `update_ant (&ants[i], grid)`: ant `i` of the
array is ticked in place. -/
def update_ant_at (c : Config) (ants : List Ant) (i : Nat) (grid : Grid) :
    Option (List Ant × Grid) :=
  (ants[i]?).bind fun a => (update_ant c a grid).map fun r => (ants.set i r.1, r.2)

/-- The ants of `n` rounds of the driver, in the order of their ticks, each as it stands at
the start of its tick. -/
def run_sched (c : Config) : Nat → List Ant → Grid → List Ant
  | 0, _, _ => []
  | n + 1, ants, grid =>
    match update_ants c ants grid with
    | none => ants
    | some r => ants ++ run_sched c n r.1 r.2

/-- Conversion of a `uint32_t` to `int32_t` (two's complement). -/
def toI32 (u : Nat) : Int :=
  if u % 2 ^ 32 < 2 ^ 31 then ((u % 2 ^ 32 : Nat) : Int) else ((u % 2 ^ 32 : Nat) : Int) - 2 ^ 32

/-- The initializer of `ants[i]` in `main`, with `i` a `uint32_t`:
`.x = WIDTH / 2 - i * 260`, `.y = HEIGHT / 2 + i * -5`, `.dir = i * 2`.  The constants are
converted to `uint32_t` (`-5` to `2 ^ 32 - 5`), the arithmetic wraps modulo `2 ^ 32`, the
coordinates are converted to `int32_t` and the heading is stored into two bits. -/
def init_ant (c : Config) (i : Nat) : Ant :=
  { x := toI32 ((c.W / 2 + (2 ^ 32 - (i * 260) % 2 ^ 32)) % 2 ^ 32)
    y := toI32 ((c.H / 2 + (i * (2 ^ 32 - 5)) % 2 ^ 32) % 2 ^ 32)
    dir := ((i * 2) % 2 ^ 32) % 4 }

/-- The value of `N_ANTS`. -/
def N_ANTS : Nat := 2

/-- The array `ants` after the set-up loop of `main`. -/
def init_ants (c : Config) (n_ants : Nat) : List Ant := (List.range n_ants).map (init_ant c)

/-- The reference rule string `RLRL` on a `W` x `H` grid. -/
def rlrlConfig (W H : Nat) : Config := ⟨W, H, ['R', 'L', 'R', 'L']⟩

/-- The rule string `RL`, the regular ant, on a `W` x `H` grid. -/
def rlConfig (W H : Nat) : Config := ⟨W, H, ['R', 'L']⟩

/-! ## Machine-integer lemmas -/

theorem i32_of_range {v : Int} (h1 : -2 ^ 31 ≤ v) (h2 : v < 2 ^ 31) : i32 v = some v := by
  unfold i32
  rw [if_pos ⟨h1, h2⟩]

theorem u32_of_range {v : Int} (h1 : 0 ≤ v) (h2 : v < 2 ^ 32) : u32 v = v.toNat := by
  unfold u32
  rw [Int.emod_eq_of_lt h1 h2]

theorem neg_lt_tmod (v : Int) {D : Int} (hD : 0 < D) : -D < Int.tmod v D := by
  obtain ⟨n, rfl⟩ := Int.eq_ofNat_of_zero_le (le_of_lt hD)
  have hn : 0 < n := by exact_mod_cast hD
  cases v with
  | ofNat m =>
    have : (0 : Int) ≤ Int.tmod (Int.ofNat m) (n : Int) := Int.tmod_nonneg _ (Int.ofNat_nonneg m)
    omega
  | negSucc m =>
    show -(n : Int) < -((((m + 1) % n : Nat)) : Int)
    have := Nat.mod_lt (m + 1) hn
    omega

theorem tmod_negSucc_nonpos (m : Nat) {D : Int} (hD : 0 < D) :
    Int.tmod (Int.negSucc m) D ≤ 0 := by
  obtain ⟨n, rfl⟩ := Int.eq_ofNat_of_zero_le (le_of_lt hD)
  show -((((m + 1) % n : Nat)) : Int) ≤ 0
  omega

theorem tmod_add_emod {D v : Int} (hD : 0 < D) :
    0 ≤ Int.tmod v D + D ∧ Int.tmod (Int.tmod v D + D) D = v % D := by
  have hlt : -D < Int.tmod v D := neg_lt_tmod v hD
  have hnn : 0 ≤ Int.tmod v D + D := by omega
  refine ⟨hnn, ?_⟩
  rw [Int.tmod_eq_emod hnn (le_of_lt hD), Int.add_emod_self]
  have hdef : Int.tmod v D = v - D * Int.tdiv v D := by
    have := Int.tmod_add_tdiv v D
    omega
  rw [hdef, Int.sub_emod]
  simp

theorem wrap_of_noOverflow {D v : Int} (hD : 0 < D) (h : Int.tmod v D + D < 2 ^ 31) :
    wrap D v = some (v % D) := by
  obtain ⟨hnn, he⟩ := tmod_add_emod (v := v) hD
  unfold wrap
  rw [if_neg (ne_of_gt hD), i32_of_range (by omega) h]
  simp [he]

theorem wrap_small {D : Int} (v : Int) (hD : 0 < D) (hD30 : D ≤ 2 ^ 30) :
    wrap D v = some (v % D) := by
  apply wrap_of_noOverflow hD
  have := Int.tmod_lt_of_pos v hD
  omega

/-! ## One tick, step by step -/

theorem cellIndex_of_lt {c : Config} {x y : Nat} (hc : c.wf) (hx : x < c.W) (hy : y < c.H) :
    cellIndex c x y = y * c.W + x ∧ y * c.W + x < c.W * c.H := by
  obtain ⟨hW, hW30, hH, hH30, hWH, _, _⟩ := hc
  have hlt : y * c.W + x < c.W * c.H := by
    calc y * c.W + x < y * c.W + c.W := by omega
      _ = (y + 1) * c.W := by ring
      _ ≤ c.H * c.W := Nat.mul_le_mul_right _ hy
      _ = c.W * c.H := by ring
  exact ⟨Nat.mod_eq_of_lt (by omega), hlt⟩

theorem cellIndex_of_inBounds {c : Config} {a : Ant} (hc : c.wf) (ha : a.inBounds c) :
    cellIndex c (u32 a.x) (u32 a.y) = a.y.toNat * c.W + a.x.toNat ∧
      a.y.toNat * c.W + a.x.toNat < c.W * c.H := by
  obtain ⟨hx0, hx1, hy0, hy1⟩ := ha
  have h30 : c.W ≤ 2 ^ 30 ∧ c.H ≤ 2 ^ 30 := ⟨hc.2.1, hc.2.2.2.1⟩
  rw [u32_of_range hx0 (by omega), u32_of_range hy0 (by omega)]
  exact cellIndex_of_lt hc (by omega) (by omega)

theorem move_wrap {c : Config} {a : Ant} (g : Grid) (hc : c.wf) (ha : a.inBounds c) :
    ((move_ant a).bind fun self2 =>
      (wrap c.W self2.x).bind fun x =>
      (wrap c.H self2.y).bind fun y =>
      some (({ self2 with x := x, y := y } : Ant), g)) = some (neighbour c a, g) := by
  obtain ⟨hW, hW30, hH, hH30, hWH, _, _⟩ := hc
  obtain ⟨hx0, hx1, hy0, hy1⟩ := ha
  have hWi : (0 : Int) < c.W := by exact_mod_cast hW
  have hHi : (0 : Int) < c.H := by exact_mod_cast hH
  have hWi30 : (c.W : Int) ≤ 2 ^ 30 := by exact_mod_cast hW30
  have hHi30 : (c.H : Int) ≤ 2 ^ 30 := by exact_mod_cast hH30
  unfold move_ant neighbour dxy
  simp only [DIR.val]
  by_cases h0 : a.dir = 0
  · simp [h0, i32_of_range (v := a.y + -1) (by omega) (by omega), wrap_small _ hWi hWi30,
      wrap_small _ hHi hHi30, sub_eq_add_neg]
  by_cases h1 : a.dir = 1
  · simp [h1, i32_of_range (v := a.x + 1) (by omega) (by omega), wrap_small _ hWi hWi30,
      wrap_small _ hHi hHi30]
  by_cases h2 : a.dir = 2
  · simp [h2, i32_of_range (v := a.y + 1) (by omega) (by omega), wrap_small _ hWi hWi30,
      wrap_small _ hHi hHi30]
  by_cases h3 : a.dir = 3
  · simp [h3, i32_of_range (v := a.x + -1) (by omega) (by omega), wrap_small _ hWi hWi30,
      wrap_small _ hHi hHi30, sub_eq_add_neg]
  simp [h0, h1, h2, h3, wrap_small _ hWi hWi30, wrap_small _ hHi hHi30]

theorem turn_symbol_pos (a : Ant) (t : Char) :
    (turn_symbol a t).x = a.x ∧ (turn_symbol a t).y = a.y := by
  unfold turn_symbol turn_ant
  split_ifs <;> simp

/-- One tick of an ant that stands on the grid: it reads the cell `w` under it, takes the
rule symbol `t` of state `(w & 255) % n_turns`, writes the word of the next state into
that cell and ends on the neighbour cell of its turned heading. -/
theorem update_ant_spec {c : Config} {a : Ant} {g : Grid}
    (hc : c.wf) (hg : Grid.wf c g) (ha : a.inBounds c) :
    ∃ w t, g[a.y.toNat * c.W + a.x.toNat]? = some w ∧
      c.turns[(w &&& 255) % c.n_turns]? = some t ∧
      update_ant c a g = some (neighbour c (turn_symbol a t),
        g.set (a.y.toNat * c.W + a.x.toNat)
          (cell_word c (((w &&& 255) % c.n_turns + 1) % c.n_turns))) := by
  obtain ⟨hidx, hlt⟩ := cellIndex_of_inBounds hc ha
  have hlen : a.y.toNat * c.W + a.x.toNat < g.length := by rw [hg]; exact hlt
  have hR : 0 < c.n_turns := hc.2.2.2.2.2.1
  have hR32 : c.n_turns < 2 ^ 32 := hc.2.2.2.2.2.2
  obtain ⟨w, hw⟩ : ∃ w, g[a.y.toNat * c.W + a.x.toNat]? = some w :=
    ⟨g[a.y.toNat * c.W + a.x.toNat], List.getElem?_eq_getElem hlen⟩
  have hst : (w &&& 255) % c.n_turns < c.turns.length := Nat.mod_lt _ hR
  obtain ⟨t, ht⟩ : ∃ t, c.turns[(w &&& 255) % c.n_turns]? = some t :=
    ⟨c.turns[(w &&& 255) % c.n_turns], List.getElem?_eq_getElem hst⟩
  refine ⟨w, t, hw, ht, ?_⟩
  have hpos := turn_symbol_pos a t
  have ha1 : (turn_symbol a t).inBounds c := by
    unfold Ant.inBounds
    rw [hpos.1, hpos.2]
    exact ha
  have hmod : ((w &&& 255) % c.n_turns + 1) % 2 ^ 32 = (w &&& 255) % c.n_turns + 1 := by
    apply Nat.mod_eq_of_lt
    have : (w &&& 255) % c.n_turns < c.n_turns := Nat.mod_lt _ hR
    omega
  unfold update_ant get_state set_state
  simp only [hidx, hw, Option.map_some', Option.some_bind, if_neg (ne_of_gt hR), ht, hpos.1,
    hpos.2, hmod, if_pos hlen]
  exact move_wrap _ hc ha1

/-! ## Cell words -/

theorem pack_eq {r g b : Nat} (hg : g < 256) (hb : b < 256) :
    (r <<< 24) ||| (g <<< 16) ||| (b <<< 8) = 2 ^ 8 * (r * 2 ^ 16 + g * 2 ^ 8 + b) := by
  have h1 : r <<< 24 ||| g <<< 16 = 2 ^ 24 * r + g * 2 ^ 16 := by
    rw [Nat.shiftLeft_eq, Nat.shiftLeft_eq, Nat.mul_comm r (2 ^ 24)]
    exact (Nat.mul_add_lt_is_or (by omega) r).symm
  have h2 : 2 ^ 24 * r + g * 2 ^ 16 = 2 ^ 16 * (2 ^ 8 * r + g) := by ring
  rw [h1, h2, Nat.shiftLeft_eq, ← Nat.mul_add_lt_is_or (by omega)]
  ring

theorem and_255 (w : Nat) : w &&& 255 = w % 256 := Nat.and_pow_two_sub_one_eq_mod w 8

theorem shr_8 (w : Nat) : w >>> 8 = w / 256 := Nat.shiftRight_eq_div_pow w 8

/-- The word of `rgb` has an empty low byte: it is `256 * col`, and `col` is not 0 when
`normalized` selects one of the six regions. -/
theorem rgb_norm_eq (n : Int) :
    ∃ col, rgb_norm n = 2 ^ 8 * col ∧ (0 ≤ n → n < 1536 → col ≠ 0) := by
  have hx : u32 n &&& 255 < 256 := by rw [and_255]; omega
  have hsh : n >>> (8 : Nat) = n / 256 := by rw [Int.shiftRight_eq_div_pow]; norm_num
  unfold rgb_norm
  simp only [hsh]
  split_ifs with h0 h1 h2 h3 h4 h5 <;> dsimp only
  · exact ⟨_, pack_eq hx (by omega), fun _ _ => by omega⟩
  · exact ⟨_, pack_eq (by omega) (by omega), fun _ _ => by omega⟩
  · exact ⟨_, pack_eq (by omega) hx, fun _ _ => by omega⟩
  · exact ⟨_, pack_eq (by omega) (by omega), fun _ _ => by omega⟩
  · exact ⟨_, pack_eq (by omega) (by omega), fun _ _ => by omega⟩
  · exact ⟨_, pack_eq (by omega) (by omega), fun _ _ => by omega⟩
  · exact ⟨_, pack_eq (by omega) (by omega), fun _ _ => by omega⟩

/-! ## Rounding to `double` -/

theorem round_even_le (N : Nat) {D : Nat} (hD : 0 < D) :
    2 * (D * round_even N D) ≤ 2 * N + D := by
  have h := Nat.div_add_mod N D
  have hr := Nat.mod_lt N hD
  unfold round_even
  simp only
  generalize hP : D * (N / D) = P at h
  split_ifs with h1 h2 h3
  · rw [hP]; omega
  · rw [Nat.mul_add, hP]; omega
  · rw [hP]; omega
  · rw [Nat.mul_add, hP]; omega

theorem bit_log_eq (n : Nat) : bit_log n = Nat.log2 n := by
  unfold bit_log
  suffices h : ∀ fuel n, n ≤ fuel → halvings fuel n = Nat.log2 n from h n n (le_refl n)
  intro fuel
  induction fuel with
  | zero =>
    intro n hn
    have : n = 0 := by omega
    subst this
    rw [Nat.log2]
    rfl
  | succ f ih =>
    intro n hn
    rw [Nat.log2]
    unfold halvings
    by_cases h2 : 2 ≤ n
    · rw [if_pos h2, if_pos h2, ih (n / 2) (by omega)]
    · rw [if_neg h2, if_neg h2]

theorem ilog2_le {n d : Nat} (hn : 0 < n) :
    (0 ≤ ilog2 n d → d * 2 ^ (ilog2 n d).toNat ≤ n) ∧
      (ilog2 n d < 0 → d ≤ n * 2 ^ (-ilog2 n d).toNat) := by
  have h1 : 2 ^ n.log2 ≤ n := Nat.log2_self_le (by omega)
  have h2 : d < 2 ^ (d.log2 + 1) := Nat.lt_log2_self
  unfold ilog2
  simp only [bit_log_eq]
  generalize n.log2 = a at h1
  generalize d.log2 = b at h2
  by_cases hl : (0 : Int) ≤ (a : Int) - (b : Int)
  · simp only [hl, ↓reduceIte]
    by_cases ht : d * 2 ^ ((a : Int) - (b : Int)).toNat ≤ n
    · simp only [ht, ↓reduceIte]
      exact ⟨fun _ => trivial, fun h => absurd hl (by omega)⟩
    · simp only [ht, ↓reduceIte]
      refine ⟨fun h0 => ?_, fun hneg => ?_⟩
      · have e1 : ((a : Int) - (b : Int) - 1).toNat + (b + 1) = a := by omega
        calc d * 2 ^ ((a : Int) - (b : Int) - 1).toNat
            ≤ 2 ^ (b + 1) * 2 ^ ((a : Int) - (b : Int) - 1).toNat :=
              Nat.mul_le_mul_right _ (le_of_lt h2)
          _ = 2 ^ a := by rw [← pow_add]; congr 1; omega
          _ ≤ n := h1
      · have e1 : (-((a : Int) - (b : Int) - 1)).toNat = 1 := by omega
        have e2 : a = b := by omega
        rw [e1]
        subst e2
        have : 2 ^ (a + 1) = 2 ^ a * 2 := pow_succ 2 a
        omega
  · simp only [hl, ↓reduceIte]
    by_cases ht : d ≤ n * 2 ^ (-((a : Int) - (b : Int))).toNat
    · simp only [ht, ↓reduceIte]
      exact ⟨fun h => absurd h hl, fun _ => trivial⟩
    · simp only [ht, ↓reduceIte]
      refine ⟨fun h0 => absurd h0 (by omega), fun _ => ?_⟩
      have e1 : (-((a : Int) - (b : Int) - 1)).toNat + a = b + 1 := by omega
      calc d ≤ 2 ^ (b + 1) := le_of_lt h2
        _ = 2 ^ a * 2 ^ (-((a : Int) - (b : Int) - 1)).toNat := by
            rw [← pow_add]; congr 1; omega
        _ ≤ n * 2 ^ (-((a : Int) - (b : Int) - 1)).toNat := Nat.mul_le_mul_right _ h1

/-- Rounding a fraction to `double` gives a value that is not negative and exceeds the
fraction by at most the relative error `2 ^ -53`, or the absolute error `2 ^ -53` near 0. -/
theorem fl_abs_le (n : Nat) {d : Nat} (hd : 0 < d) :
    0 ≤ fl_abs n d ∧ fl_abs n d ≤ (n : ℚ) / d + (n : ℚ) / d / 2 ^ 53 + 1 / 2 ^ 53 := by
  have hdq : (0 : ℚ) < (d : ℚ) := by exact_mod_cast hd
  have hnq : (0 : ℚ) ≤ (n : ℚ) := by exact_mod_cast Nat.zero_le n
  unfold fl_abs
  by_cases hn0 : n = 0
  · rw [if_pos hn0]
    refine ⟨le_refl 0, ?_⟩
    positivity
  rw [if_neg hn0]
  obtain ⟨hk1, hk2⟩ := ilog2_le (n := n) (d := d) (by omega)
  generalize ilog2 n d = k at hk1 hk2
  simp only
  by_cases he : (0 : Int) ≤ max (k - 52) (-1074)
  · rw [if_pos he]
    have hk : (k).toNat = (max (k - 52) (-1074)).toNat + 52 := by omega
    have hkn := hk1 (by omega)
    rw [hk, pow_add] at hkn
    generalize (max (k - 52) (-1074)).toNat = E at hkn
    have hm := round_even_le n (D := d * 2 ^ E) (by positivity)
    generalize round_even n (d * 2 ^ E) = m at hm
    refine ⟨by positivity, ?_⟩
    have hnat : m * 2 ^ E * (d * 2 ^ 53) ≤ n * 2 ^ 53 + n + d := by
      have e1 : m * 2 ^ E * (d * 2 ^ 53) = d * 2 ^ E * m * 2 ^ 53 := by ring
      have e2 : d * (2 ^ E * 2 ^ 52) = d * 2 ^ E * 2 ^ 52 := by ring
      rw [e1]
      rw [e2] at hkn
      generalize d * 2 ^ E * m = A at hm ⊢
      generalize d * 2 ^ E = B at hm hkn
      omega
    have hq : ((m * 2 ^ E : Nat) : ℚ) * ((d : ℚ) * 2 ^ 53) ≤ (n : ℚ) * 2 ^ 53 + n + d := by
      exact_mod_cast hnat
    have hpos : (0 : ℚ) < (d : ℚ) * 2 ^ 53 := by positivity
    have key : (n : ℚ) / d + (n : ℚ) / d / 2 ^ 53 + 1 / 2 ^ 53 =
        ((n : ℚ) * 2 ^ 53 + n + d) / ((d : ℚ) * 2 ^ 53) := by
      field_simp
      ring
    rw [key, le_div_iff₀ hpos]
    exact hq
  · rw [if_neg he]
    have hF : 2 ^ 52 * d ≤ n * 2 ^ (-max (k - 52) (-1074)).toNat +
        d * 2 ^ (-max (k - 52) (-1074)).toNat := by
      by_cases hsub : k - 52 ≥ -1074
      · by_cases hk0 : 0 ≤ k
        · have h1 := hk1 hk0
          have ee : (-max (k - 52) (-1074)).toNat + k.toNat = 52 := by omega
          have : 2 ^ 52 * d = d * 2 ^ k.toNat * 2 ^ (-max (k - 52) (-1074)).toNat := by
            rw [← ee, pow_add]
            ring
          rw [this]
          exact le_trans (Nat.mul_le_mul_right _ h1) (Nat.le_add_right _ _)
        · have h1 := hk2 (by omega)
          have ee : (-max (k - 52) (-1074)).toNat = (-k).toNat + 52 := by omega
          rw [ee, pow_add]
          have : 2 ^ 52 * d ≤ n * 2 ^ (-k).toNat * 2 ^ 52 := by
            rw [Nat.mul_comm]
            exact Nat.mul_le_mul_right _ h1
          calc 2 ^ 52 * d ≤ n * 2 ^ (-k).toNat * 2 ^ 52 := this
            _ = n * (2 ^ (-k).toNat * 2 ^ 52) := by ring
            _ ≤ _ := Nat.le_add_right _ _
      · have ee : 52 ≤ (-max (k - 52) (-1074)).toNat := by omega
        have h52 := Nat.pow_le_pow_right (n := 2) (by decide) ee
        calc 2 ^ 52 * d ≤ 2 ^ (-max (k - 52) (-1074)).toNat * d := Nat.mul_le_mul_right _ h52
          _ = d * 2 ^ (-max (k - 52) (-1074)).toNat := Nat.mul_comm _ _
          _ ≤ _ := Nat.le_add_left _ _
    generalize (-max (k - 52) (-1074)).toNat = F at hF
    have hm := round_even_le (n * 2 ^ F) hd
    generalize round_even (n * 2 ^ F) d = m at hm
    have hP : (0 : ℚ) < ((2 ^ F : Nat) : ℚ) := by positivity
    refine ⟨by positivity, ?_⟩
    have hnat : m * (d * 2 ^ 53) ≤ (n * 2 ^ 53 + n + d) * 2 ^ F := by
      have e1 : (n * 2 ^ 53 + n + d) * 2 ^ F = n * 2 ^ F * 2 ^ 53 + n * 2 ^ F + d * 2 ^ F := by
        ring
      have e2 : m * (d * 2 ^ 53) = d * m * 2 ^ 53 := by ring
      rw [e1, e2]
      generalize d * m = A at hm ⊢
      generalize n * 2 ^ F = N1 at hm hF ⊢
      generalize d * 2 ^ F = B at hF ⊢
      omega
    have hq : (m : ℚ) * ((d : ℚ) * 2 ^ 53) ≤
        ((n : ℚ) * 2 ^ 53 + n + d) * ((2 ^ F : Nat) : ℚ) := by
      exact_mod_cast hnat
    have hpos : (0 : ℚ) < (d : ℚ) * 2 ^ 53 := by positivity
    have key : (n : ℚ) / d + (n : ℚ) / d / 2 ^ 53 + 1 / 2 ^ 53 =
        ((n : ℚ) * 2 ^ 53 + n + d) / ((d : ℚ) * 2 ^ 53) := by
      field_simp
      ring
    rw [key, div_le_div_iff₀ hP hpos]
    exact hq

theorem fl_nonneg_le {q : ℚ} (hq : 0 ≤ q) :
    0 ≤ fl q ∧ fl q ≤ q + q / 2 ^ 53 + 1 / 2 ^ 53 := by
  have hnum : (0 : Int) ≤ q.num := Rat.num_nonneg.mpr hq
  have hcast : ((q.num.natAbs : Nat) : ℚ) = (q.num : ℚ) := by
    rw [← Int.cast_natCast, Int.natAbs_of_nonneg hnum]
  have hqq : ((q.num.natAbs : Nat) : ℚ) / (q.den : ℚ) = q := by
    rw [hcast]
    exact Rat.num_div_den q
  have h := fl_abs_le q.num.natAbs (d := q.den) q.den_pos
  rw [hqq] at h
  unfold fl
  rw [if_neg (not_lt.mpr hq)]
  exact h

theorem cast_i32_some {d : ℚ} {n : Int} (h : cast_i32 d = some n) :
    trunc32 d = n ∧ -2 ^ 31 ≤ n ∧ n < 2 ^ 31 := by
  unfold cast_i32 i32 at h
  split_ifs at h with hr
  have e := Option.some.inj h
  rw [e] at hr
  exact ⟨e, hr.1, hr.2⟩

theorem trunc32_of_nonneg {q : ℚ} (hq : 0 ≤ q) : trunc32 q = ⌊q⌋ := by
  unfold trunc32
  rw [Rat.floor_def, Int.tdiv_eq_ediv (Rat.num_nonneg.mpr hq) (by positivity)]

/-- The quotient `state / n_turns` of a state below `n_turns` (and below 256) is
normalized into `[0, 1536)`, the roundings of the quotient and of the two products
included. -/
theorem rgb_product_ratio {s R : Nat} (hs : s < R) (h256 : s < 256) :
    0 ≤ trunc32 (rgb_product ((s : ℚ) / (R : ℚ))) ∧
      trunc32 (rgb_product ((s : ℚ) / (R : ℚ))) < 1536 := by
  have hRpos : (0 : ℚ) < (R : ℚ) := by exact_mod_cast (by omega : 0 < R)
  have ha0 : (0 : ℚ) ≤ (s : ℚ) / (R : ℚ) := by positivity
  have ha1 : (s : ℚ) / (R : ℚ) ≤ 255 / 256 := by
    rw [div_le_div_iff₀ hRpos (by norm_num)]
    have h : s * 256 ≤ 255 * R := by omega
    exact_mod_cast h
  obtain ⟨h10, h11⟩ := fl_nonneg_le ha0
  obtain ⟨h20, h21⟩ := fl_nonneg_le (q := fl ((s : ℚ) / (R : ℚ)) * 256) (by positivity)
  obtain ⟨h30, h31⟩ :=
    fl_nonneg_le (q := fl (fl ((s : ℚ) / (R : ℚ)) * 256) * 6) (by positivity)
  have hlt : rgb_product ((s : ℚ) / (R : ℚ)) < ((1536 : Int) : ℚ) := by
    unfold rgb_product
    push_cast
    generalize fl (fl (fl ((s : ℚ) / (R : ℚ)) * 256) * 6) = x3 at h30 h31 ⊢
    generalize fl (fl ((s : ℚ) / (R : ℚ)) * 256) = x2 at h20 h21 h31
    generalize fl ((s : ℚ) / (R : ℚ)) = x1 at h10 h11 h21
    generalize (s : ℚ) / (R : ℚ) = a at ha0 ha1 h11
    norm_num at h11 h21 h31
    linarith
  have h30p : 0 ≤ rgb_product ((s : ℚ) / (R : ℚ)) := h30
  rw [trunc32_of_nonneg h30p]
  exact ⟨Int.floor_nonneg.mpr h30p, Int.floor_lt.mpr hlt⟩

/-- The word written by `set_state` for a state that fits the low byte: the state in the
low byte under a colour `col`, with `rgb (state / n_turns) = 256 * col` for a state that
is not 0 and `col = 0` for state 0. -/
theorem cell_word_eq (c : Config) {s : Nat} (hs : s < 256) :
    ∃ col, cell_word c s = 2 ^ 8 * col + s ∧
      (s ≠ 0 → rgb ((s : ℚ) / (c.n_turns : ℚ)) = 2 ^ 8 * col) ∧
      (s = 0 → col = 0) ∧ (s ≠ 0 → s < c.n_turns → col ≠ 0) := by
  unfold cell_word
  by_cases h : s = 0
  · subst h
    exact ⟨0, by simp, fun h => absurd rfl h, fun _ => rfl, fun h => absurd rfl h⟩
  · obtain ⟨col, hcol, hnz⟩ := rgb_norm_eq (trunc32 (rgb_product ((s : ℚ) / (c.n_turns : ℚ))))
    refine ⟨col, ?_, fun _ => hcol, fun h0 => absurd h0 h, fun _ hlt => ?_⟩
    · rw [if_pos h]
      unfold rgb
      rw [hcol]
      exact (Nat.mul_add_lt_is_or (by omega) col).symm
    · exact hnz (rgb_product_ratio hlt hs).1 (rgb_product_ratio hlt hs).2

/-! ## Consequences of one tick -/

theorem turn_symbol_dir_lt (a : Ant) (t : Char) (hd : a.dir < 4) : (turn_symbol a t).dir < 4 := by
  unfold turn_symbol turn_ant
  split_ifs <;> first | exact hd | (dsimp only; omega)

theorem neighbour_ok {c : Config} (a : Ant) (hc : c.wf) (hd : a.dir < 4) :
    (neighbour c a).ok c := by
  obtain ⟨hW, _, hH, _⟩ := hc
  have hWi : (0 : Int) < c.W := by exact_mod_cast hW
  have hHi : (0 : Int) < c.H := by exact_mod_cast hH
  exact ⟨⟨Int.emod_nonneg _ (ne_of_gt hWi), Int.emod_lt_of_pos _ hWi,
    Int.emod_nonneg _ (ne_of_gt hHi), Int.emod_lt_of_pos _ hHi⟩, hd⟩

/-- One tick keeps the invariant of the ant and the size of the buffer. -/
theorem update_ant_ok {c : Config} {a : Ant} {g : Grid}
    (hc : c.wf) (hg : Grid.wf c g) (ha : a.ok c) :
    ∃ r, update_ant c a g = some r ∧ r.1.ok c ∧ Grid.wf c r.2 := by
  obtain ⟨w, t, _, _, hu⟩ := update_ant_spec hc hg ha.1
  refine ⟨_, hu, neighbour_ok _ hc (turn_symbol_dir_lt a t ha.2), ?_⟩
  show (g.set _ _).length = c.W * c.H
  rw [List.length_set]
  exact hg

theorem update_ants_ok {c : Config} (hc : c.wf) (ants : List Ant) :
    ∀ g : Grid, Grid.wf c g → (∀ a ∈ ants, a.ok c) →
      ∃ r, update_ants c ants g = some r ∧ (∀ a ∈ r.1, a.ok c) ∧
        r.1.length = ants.length ∧ Grid.wf c r.2 := by
  induction ants with
  | nil =>
    intro g hg _
    exact ⟨([], g), rfl, fun a ha => absurd ha (List.not_mem_nil a), rfl, hg⟩
  | cons a rest ih =>
    intro g hg hall
    obtain ⟨r, hr, hrok, hrg⟩ := update_ant_ok hc hg (hall a (List.mem_cons_self a rest))
    obtain ⟨rs, hrs, hrsok, hlen, hrsg⟩ :=
      ih r.2 hrg (fun b hb => hall b (List.mem_cons_of_mem a hb))
    refine ⟨(r.1 :: rs.1, rs.2), ?_, ?_, ?_, hrsg⟩
    · simp [update_ants, hr, hrs]
    · intro b hb
      rcases List.mem_cons.mp hb with h | h
      · rw [h]; exact hrok
      · exact hrsok b h
    · simp [hlen]

theorem run_ok {c : Config} (hc : c.wf) (n : Nat) :
    ∀ (ants : List Ant) (g : Grid), Grid.wf c g → (∀ a ∈ ants, a.ok c) →
      ∃ r, run c n ants g = some r ∧ (∀ a ∈ r.1, a.ok c) ∧
        r.1.length = ants.length ∧ Grid.wf c r.2 := by
  induction n with
  | zero =>
    intro ants g hg hall
    exact ⟨(ants, g), rfl, hall, rfl, hg⟩
  | succ n ih =>
    intro ants g hg hall
    obtain ⟨r, hr, hrok, hlen, hrg⟩ := update_ants_ok hc ants g hg hall
    obtain ⟨r2, hr2, hr2ok, hlen2, hr2g⟩ := ih r.1 r.2 hrg hrok
    exact ⟨r2, by simp [run, hr, hr2], hr2ok, by rw [hlen2, hlen], hr2g⟩

/-! ## Properties of every cell, kept by ticks -/

theorem zeroGrid_wf (c : Config) : Grid.wf c (zeroGrid c) := by
  unfold Grid.wf zeroGrid
  exact List.length_replicate _ _

theorem zeroGrid_cells (c : Config) (P : Nat → Prop) (h0 : P 0) : ∀ w ∈ zeroGrid c, P w := by
  intro w hw
  rw [List.eq_of_mem_replicate hw]
  exact h0

/-- A property that holds of every word `set_state` can write is kept, cell by cell, by
one tick. -/
theorem update_ant_cells {c : Config} {a : Ant} {g : Grid} (P : Nat → Prop)
    (hc : c.wf) (hg : Grid.wf c g) (ha : a.inBounds c)
    (hnew : ∀ s, s < c.n_turns → P (cell_word c s)) (hP : ∀ w ∈ g, P w) :
    ∀ r, update_ant c a g = some r → ∀ w ∈ r.2, P w := by
  obtain ⟨w0, t, _, _, hu⟩ := update_ant_spec hc hg ha
  intro r hr w hw
  rw [hu] at hr
  cases hr
  rcases List.mem_or_eq_of_mem_set hw with h | h
  · exact hP w h
  · rw [h]
    exact hnew _ (Nat.mod_lt _ hc.2.2.2.2.2.1)

theorem update_ants_cells {c : Config} (P : Nat → Prop) (hc : c.wf)
    (hnew : ∀ s, s < c.n_turns → P (cell_word c s)) (ants : List Ant) :
    ∀ g : Grid, Grid.wf c g → (∀ a ∈ ants, a.ok c) → (∀ w ∈ g, P w) →
      ∀ rs, update_ants c ants g = some rs → ∀ w ∈ rs.2, P w := by
  induction ants with
  | nil =>
    intro g _ _ hP rs hrs
    cases hrs
    exact hP
  | cons a rest ih =>
    intro g hg hall hP rs hrs
    have haok := hall a (List.mem_cons_self a rest)
    obtain ⟨r, hr, _, hrg⟩ := update_ant_ok hc hg haok
    have hPr := update_ant_cells P hc hg haok.1 hnew hP r hr
    simp only [update_ants, hr, Option.some_bind] at hrs
    obtain ⟨rs1, hrs1, heq⟩ := Option.bind_eq_some.mp hrs
    cases heq
    exact ih r.2 hrg (fun b hb => hall b (List.mem_cons_of_mem a hb)) hPr rs1 hrs1

theorem run_cells {c : Config} (P : Nat → Prop) (hc : c.wf)
    (hnew : ∀ s, s < c.n_turns → P (cell_word c s)) (n : Nat) :
    ∀ (ants : List Ant) (g : Grid), Grid.wf c g → (∀ a ∈ ants, a.ok c) → (∀ w ∈ g, P w) →
      ∀ rs, run c n ants g = some rs → ∀ w ∈ rs.2, P w := by
  induction n with
  | zero =>
    intro ants g _ _ hP rs hrs
    cases hrs
    exact hP
  | succ n ih =>
    intro ants g hg hall hP rs hrs
    obtain ⟨r, hr, hrok, _, hrg⟩ := update_ants_ok hc ants g hg hall
    have hPr := update_ants_cells P hc hnew ants g hg hall hP r hr
    simp only [run, hr, Option.some_bind] at hrs
    exact ih r.1 r.2 hrg hrok hPr rs hrs

/-- A schedule of ants that stand on the grid runs to its end, and keeps every property
of the cells that `set_state` establishes. -/
theorem tick_seq_cells {c : Config} (P : Nat → Prop) (hc : c.wf)
    (hnew : ∀ s, s < c.n_turns → P (cell_word c s)) (sched : List Ant) :
    ∀ g : Grid, Grid.wf c g → (∀ a ∈ sched, a.inBounds c) → (∀ w ∈ g, P w) →
      ∃ g1, tick_seq c sched g = some g1 ∧ Grid.wf c g1 ∧ ∀ w ∈ g1, P w := by
  induction sched with
  | nil =>
    intro g hg _ hP
    exact ⟨g, rfl, hg, hP⟩
  | cons a rest ih =>
    intro g hg hall hP
    have hain := hall a (List.mem_cons_self a rest)
    obtain ⟨w0, t, _, _, hu⟩ := update_ant_spec hc hg hain
    have hPr := update_ant_cells P hc hg hain hnew hP _ hu
    have hrg : Grid.wf c (g.set (a.y.toNat * c.W + a.x.toNat)
        (cell_word c (((w0 &&& 255) % c.n_turns + 1) % c.n_turns))) := by
      show (g.set _ _).length = c.W * c.H
      rw [List.length_set]
      exact hg
    obtain ⟨g1, hg1, hwf, hP1⟩ := ih _ hrg (fun b hb => hall b (List.mem_cons_of_mem a hb)) hPr
    exact ⟨g1, by simp only [tick_seq, hu, Option.some_bind, hg1], hwf, hP1⟩

/-- The words of `set_state` have a state below `n_turns` and a colour that is 0 exactly
for state 0. -/
theorem cell_word_index_colour (c : Config) (hR : c.n_turns ≤ 256) (s : Nat)
    (hs : s < c.n_turns) :
    cell_word c s &&& 255 < c.n_turns ∧ (cell_word c s >>> 8 = 0 ↔ cell_word c s &&& 255 = 0) := by
  obtain ⟨col, hcol, _, hzero, hnz⟩ := cell_word_eq c (lt_of_lt_of_le hs hR)
  have h1 : cell_word c s &&& 255 = s := by rw [hcol, and_255]; omega
  have h2 : cell_word c s >>> 8 = col := by rw [hcol, shr_8]; omega
  rw [h1, h2]
  refine ⟨hs, fun h => ?_, hzero⟩
  by_contra hne
  exact hnz hne hs h

/-- The words of `set_state` carry the colour of `rgb` for a state that is not 0 and are 0
for state 0. -/
theorem cell_word_rgb (c : Config) (hR : c.n_turns ≤ 256) (s : Nat) (hs : s < c.n_turns) :
    (cell_word c s &&& 255 ≠ 0 → cell_word c s >>> 8 =
        rgb (((cell_word c s &&& 255 : Nat) : ℚ) / (c.n_turns : ℚ)) >>> 8) ∧
      (cell_word c s &&& 255 = 0 → cell_word c s = 0) := by
  obtain ⟨col, hcol, hrgb, hzero, _⟩ := cell_word_eq c (lt_of_lt_of_le hs hR)
  have h1 : cell_word c s &&& 255 = s := by rw [hcol, and_255]; omega
  rw [h1]
  constructor
  · intro hne
    rw [hrgb hne, hcol, shr_8, shr_8]
    omega
  · intro h0
    have := hzero h0
    rw [hcol]
    omega

/-! ## Remainders next to the grid -/

theorem emod_succ_ne {D x : Int} (hD : 2 ≤ D) (h0 : 0 ≤ x) (h1 : x < D) : (x + 1) % D ≠ x := by
  by_cases h : x + 1 < D
  · rw [Int.emod_eq_of_lt (by omega) h]
    omega
  · have hx : x + 1 = D := by omega
    rw [hx, Int.emod_self]
    omega

theorem emod_pred_eq {D x : Int} (hD : 0 < D) (h0 : 0 ≤ x) (h1 : x < D) :
    (x + -1) % D = if x = 0 then D - 1 else x - 1 := by
  split_ifs with h
  · subst h
    rw [← Int.add_emod_self, Int.emod_eq_of_lt (by omega) (by omega)]
    omega
  · rw [Int.emod_eq_of_lt (by omega) (by omega)]
    omega

theorem emod_pred_ne {D x : Int} (hD : 2 ≤ D) (h0 : 0 ≤ x) (h1 : x < D) : (x + -1) % D ≠ x := by
  rw [emod_pred_eq (by omega) h0 h1]
  split_ifs <;> omega

/-! ## Channels of the colour mapper -/

theorem chans_of_pack {r g b : Nat} (hr : r < 256) (hg : g < 256) (hb : b < 256) :
    chan_red (2 ^ 8 * (r * 2 ^ 16 + g * 2 ^ 8 + b)) = r ∧
      chan_grn (2 ^ 8 * (r * 2 ^ 16 + g * 2 ^ 8 + b)) = g ∧
      chan_blu (2 ^ 8 * (r * 2 ^ 16 + g * 2 ^ 8 + b)) = b := by
  unfold chan_red chan_grn chan_blu
  simp only [and_255, Nat.shiftRight_eq_div_pow]
  refine ⟨?_, ?_, ?_⟩ <;> omega

theorem chans_of_shifts {w r g b : Nat} (hw : w = (r <<< 24) ||| (g <<< 16) ||| (b <<< 8))
    (hr : r < 256) (hg : g < 256) (hb : b < 256) :
    w = 2 ^ 8 * (r * 2 ^ 16 + g * 2 ^ 8 + b) ∧
      chan_red w = r ∧ chan_grn w = g ∧ chan_blu w = b := by
  rw [hw, pack_eq hg hb]
  exact ⟨rfl, chans_of_pack hr hg hb⟩

/-- The cases of the `switch` of `rgb`, one for each value of `normalized >> 8`. -/
theorem rgb_norm_region (n : Int) :
    ∃ x : Nat, x = u32 n &&& 255 ∧
      (n / 256 = 0 → rgb_norm n = (255 <<< 24) ||| (x <<< 16) ||| (0 <<< 8)) ∧
      (n / 256 = 1 → rgb_norm n = ((255 - x) <<< 24) ||| (255 <<< 16) ||| (0 <<< 8)) ∧
      (n / 256 = 2 → rgb_norm n = (0 <<< 24) ||| (255 <<< 16) ||| (x <<< 8)) ∧
      (n / 256 = 3 → rgb_norm n = (0 <<< 24) ||| ((255 - x) <<< 16) ||| (255 <<< 8)) ∧
      (n / 256 = 4 → rgb_norm n = (x <<< 24) ||| (0 <<< 16) ||| (255 <<< 8)) ∧
      (n / 256 = 5 → rgb_norm n = (255 <<< 24) ||| (0 <<< 16) ||| ((255 - x) <<< 8)) := by
  have hsh : n >>> (8 : Nat) = n / 256 := by rw [Int.shiftRight_eq_div_pow]; norm_num
  refine ⟨_, rfl, ?_, ?_, ?_, ?_, ?_, ?_⟩ <;> intro k <;> unfold rgb_norm <;>
    simp only [hsh, k] <;> rfl

/-- The three channels of `rgb` on the six regions of the hue wheel, as functions of
`normalized`. -/
theorem rgb_norm_chans (n : Int) (h0 : 0 ≤ n) (h1 : n < 1536) :
    ∃ r g b : Nat, rgb_norm n = 2 ^ 8 * (r * 2 ^ 16 + g * 2 ^ 8 + b) ∧
      chan_red (rgb_norm n) = r ∧ chan_grn (rgb_norm n) = g ∧ chan_blu (rgb_norm n) = b ∧
      ((n < 256 ∧ r = 255 ∧ (g : Int) = n ∧ b = 0) ∨
       (256 ≤ n ∧ n < 512 ∧ (r : Int) = 511 - n ∧ g = 255 ∧ b = 0) ∨
       (512 ≤ n ∧ n < 768 ∧ r = 0 ∧ g = 255 ∧ (b : Int) = n - 512) ∨
       (768 ≤ n ∧ n < 1024 ∧ r = 0 ∧ (g : Int) = 1023 - n ∧ b = 255) ∨
       (1024 ≤ n ∧ n < 1280 ∧ (r : Int) = n - 1024 ∧ g = 0 ∧ b = 255) ∨
       (1280 ≤ n ∧ r = 255 ∧ g = 0 ∧ (b : Int) = 1535 - n)) := by
  obtain ⟨x, hxdef, e0, e1, e2, e3, e4, e5⟩ := rgb_norm_region n
  have hu : u32 n = n.toNat := u32_of_range h0 (by omega)
  have hx : (x : Int) = n % 256 := by rw [hxdef, and_255, hu]; omega
  have hxlt : x < 256 := by omega
  clear hxdef hu
  have hk : n / 256 = 0 ∨ n / 256 = 1 ∨ n / 256 = 2 ∨ n / 256 = 3 ∨ n / 256 = 4 ∨
      n / 256 = 5 := by omega
  rcases hk with k | k | k | k | k | k
  · have hd : n < 256 ∧ (x : Int) = n := by omega
    obtain ⟨q, q1, q2, q3⟩ := chans_of_shifts (e0 k) (by omega) hxlt (by omega)
    exact ⟨255, x, 0, q, q1, q2, q3, Or.inl ⟨hd.1, rfl, hd.2, rfl⟩⟩
  · have hd : 256 ≤ n ∧ n < 512 ∧ ((255 - x : Nat) : Int) = 511 - n := by omega
    obtain ⟨q, q1, q2, q3⟩ := chans_of_shifts (e1 k) (by omega) (by omega) (by omega)
    exact ⟨255 - x, 255, 0, q, q1, q2, q3, Or.inr (Or.inl ⟨hd.1, hd.2.1, hd.2.2, rfl, rfl⟩)⟩
  · have hd : 512 ≤ n ∧ n < 768 ∧ (x : Int) = n - 512 := by omega
    obtain ⟨q, q1, q2, q3⟩ := chans_of_shifts (e2 k) (by omega) (by omega) hxlt
    exact ⟨0, 255, x, q, q1, q2, q3,
      Or.inr (Or.inr (Or.inl ⟨hd.1, hd.2.1, rfl, rfl, hd.2.2⟩))⟩
  · have hd : 768 ≤ n ∧ n < 1024 ∧ ((255 - x : Nat) : Int) = 1023 - n := by omega
    obtain ⟨q, q1, q2, q3⟩ := chans_of_shifts (e3 k) (by omega) (by omega) (by omega)
    exact ⟨0, 255 - x, 255, q, q1, q2, q3,
      Or.inr (Or.inr (Or.inr (Or.inl ⟨hd.1, hd.2.1, rfl, hd.2.2, rfl⟩)))⟩
  · have hd : 1024 ≤ n ∧ n < 1280 ∧ (x : Int) = n - 1024 := by omega
    obtain ⟨q, q1, q2, q3⟩ := chans_of_shifts (e4 k) hxlt (by omega) (by omega)
    exact ⟨x, 0, 255, q, q1, q2, q3,
      Or.inr (Or.inr (Or.inr (Or.inr (Or.inl ⟨hd.1, hd.2.1, hd.2.2, rfl, rfl⟩))))⟩
  · have hd : 1280 ≤ n ∧ ((255 - x : Nat) : Int) = 1535 - n := by omega
    obtain ⟨q, q1, q2, q3⟩ := chans_of_shifts (e5 k) (by omega) (by omega) (by omega)
    exact ⟨255, 0, 255 - x, q, q1, q2, q3,
      Or.inr (Or.inr (Or.inr (Or.inr (Or.inr ⟨hd.1, rfl, rfl, hd.2⟩))))⟩

/-- Outside the six regions no case of the `switch` matches and the word is 0. -/
theorem rgb_norm_outside (n : Int) (h : n < 0 ∨ 1536 ≤ n) : rgb_norm n = 0 := by
  have hsh : n >>> (8 : Nat) = n / 256 := by rw [Int.shiftRight_eq_div_pow]; norm_num
  have k0 : ¬ n / 256 = 0 := by omega
  have k1 : ¬ n / 256 = 1 := by omega
  have k2 : ¬ n / 256 = 2 := by omega
  have k3 : ¬ n / 256 = 3 := by omega
  have k4 : ¬ n / 256 = 4 := by omega
  have k5 : ¬ n / 256 = 5 := by omega
  unfold rgb_norm
  simp only [hsh, k0, k1, k2, k3, k4, k5, if_false]
  rfl

/-! ## Frame of a tick -/

theorem index_inj {W x y x1 y1 : Nat} (hx : x < W) (hx1 : x1 < W)
    (h : y * W + x = y1 * W + x1) : x = x1 ∧ y = y1 := by
  have hW : 0 < W := by omega
  have e1 : (y * W + x) % W = x := by
    rw [Nat.add_comm, Nat.add_mul_mod_self_right, Nat.mod_eq_of_lt hx]
  have e2 : (y1 * W + x1) % W = x1 := by
    rw [Nat.add_comm, Nat.add_mul_mod_self_right, Nat.mod_eq_of_lt hx1]
  have hxx : x = x1 := by rw [← e1, ← e2, h]
  subst hxx
  exact ⟨rfl, Nat.eq_of_mul_eq_mul_right hW (by omega)⟩

/-- The index of the cell under an ant on the grid differs from the index of every other
cell of the grid. -/
theorem index_ne_of_pos_ne {c : Config} {a : Ant} {x y : Nat} (ha : a.inBounds c)
    (hx : x < c.W) (hne : ¬ (a.x = x ∧ a.y = y)) :
    a.y.toNat * c.W + a.x.toNat ≠ y * c.W + x := by
  obtain ⟨hx0, hx1, hy0, hy1⟩ := ha
  intro h
  obtain ⟨e1, e2⟩ := index_inj (by omega) hx h
  exact hne ⟨by omega, by omega⟩

/-- One tick writes one cell: the buffer keeps its length and every cell but the one under
the ant. -/
theorem update_ant_frame {c : Config} {a : Ant} {g : Grid}
    (hc : c.wf) (hg : Grid.wf c g) (ha : a.inBounds c) :
    ∃ r, update_ant c a g = some r ∧ r.2.length = g.length ∧
      ∀ j, j ≠ a.y.toNat * c.W + a.x.toNat → r.2[j]? = g[j]? := by
  obtain ⟨w, t, _, _, hu⟩ := update_ant_spec hc hg ha
  refine ⟨_, hu, List.length_set _ _ _, fun j hj => ?_⟩
  exact List.getElem?_set_ne (Ne.symm hj)

theorem tick_seq_append (c : Config) (l1 l2 : List Ant) :
    ∀ g : Grid, tick_seq c (l1 ++ l2) g = (tick_seq c l1 g).bind (tick_seq c l2) := by
  induction l1 with
  | nil => intro g; rfl
  | cons a rest ih =>
    intro g
    show (update_ant c a g).bind (fun r => tick_seq c (rest ++ l2) r.2) = _
    cases h : update_ant c a g with
    | none => simp [tick_seq, h]
    | some r => simp [tick_seq, h, ih]

theorem update_ants_tick_seq (c : Config) (ants : List Ant) :
    ∀ (g : Grid) rs, update_ants c ants g = some rs → tick_seq c ants g = some rs.2 := by
  induction ants with
  | nil =>
    intro g rs h
    cases h
    rfl
  | cons a rest ih =>
    intro g rs h
    simp only [update_ants] at h
    obtain ⟨r, hr, h2⟩ := Option.bind_eq_some.mp h
    obtain ⟨rs1, hrs1, h3⟩ := Option.bind_eq_some.mp h2
    cases h3
    simp only [tick_seq, hr, Option.some_bind]
    exact ih r.2 rs1 hrs1

/-- A run of the driver is the schedule `run_sched` of single ticks. -/
theorem run_tick_seq (c : Config) (n : Nat) :
    ∀ (ants : List Ant) (g : Grid) rs, run c n ants g = some rs →
      tick_seq c (run_sched c n ants g) g = some rs.2 := by
  induction n with
  | zero =>
    intro ants g rs h
    cases h
    rfl
  | succ n ih =>
    intro ants g rs h
    simp only [run] at h
    obtain ⟨r, hr, h2⟩ := Option.bind_eq_some.mp h
    simp only [run_sched, hr]
    rw [tick_seq_append, update_ants_tick_seq c ants g r hr, Option.some_bind]
    exact ih r.1 r.2 rs h2

theorem run_sched_ok {c : Config} (hc : c.wf) (n : Nat) :
    ∀ (ants : List Ant) (g : Grid), Grid.wf c g → (∀ a ∈ ants, a.ok c) →
      ∀ a ∈ run_sched c n ants g, a.ok c := by
  induction n with
  | zero =>
    intro ants g _ _ a ha
    exact absurd ha (List.not_mem_nil a)
  | succ n ih =>
    intro ants g hg hall a ha
    obtain ⟨r, hr, hrok, _, hrg⟩ := update_ants_ok hc ants g hg hall
    simp only [run_sched, hr] at ha
    rcases List.mem_append.mp ha with h | h
    · exact hall a h
    · exact ih r.1 r.2 hrg hrok a h

/-- A schedule of ticks leaves every cell on which none of its ants stands as it was. -/
theorem tick_seq_untouched {c : Config} (hc : c.wf) (sched : List Ant) :
    ∀ g : Grid, Grid.wf c g → (∀ a ∈ sched, a.inBounds c) →
      ∀ g1, tick_seq c sched g = some g1 → ∀ x y : Nat, x < c.W →
        (∀ a ∈ sched, ¬ (a.x = x ∧ a.y = y)) → g1[y * c.W + x]? = g[y * c.W + x]? := by
  induction sched with
  | nil =>
    intro g _ _ g1 h x y _ _
    cases h
    rfl
  | cons a rest ih =>
    intro g hg hall g1 h x y hx hno
    have hain := hall a (List.mem_cons_self a rest)
    obtain ⟨r, hr, hlen, hframe⟩ := update_ant_frame hc hg hain
    simp only [tick_seq, hr, Option.some_bind] at h
    have hrg : Grid.wf c r.2 := by
      show r.2.length = c.W * c.H
      rw [hlen]
      exact hg
    rw [ih r.2 hrg (fun b hb => hall b (List.mem_cons_of_mem a hb)) g1 h x y hx
      (fun b hb => hno b (List.mem_cons_of_mem a hb))]
    exact hframe _ (Ne.symm (index_ne_of_pos_ne hain hx (hno a (List.mem_cons_self a rest))))

/-! ## Arithmetic of the move -/

/-- The step of `move_ant` from a cell of the grid does not overflow and leaves each
coordinate at most one cell outside the grid. -/
theorem move_ant_range {c : Config} {a : Ant} (hc : c.wf) (ha : a.inBounds c) :
    ∃ a2, move_ant a = some a2 ∧ -1 ≤ a2.x ∧ a2.x ≤ c.W ∧ -1 ≤ a2.y ∧ a2.y ≤ c.H := by
  obtain ⟨hW, hW30, hH, hH30, _⟩ := hc
  obtain ⟨hx0, hx1, hy0, hy1⟩ := ha
  unfold move_ant
  simp only [DIR.val]
  split_ifs with h0 h1 h2 h3
  · rw [i32_of_range (by omega) (by omega)]
    exact ⟨_, rfl, by dsimp only; omega, by dsimp only; omega, by dsimp only; omega,
      by dsimp only; omega⟩
  · rw [i32_of_range (by omega) (by omega)]
    exact ⟨_, rfl, by dsimp only; omega, by dsimp only; omega, by dsimp only; omega,
      by dsimp only; omega⟩
  · rw [i32_of_range (by omega) (by omega)]
    exact ⟨_, rfl, by dsimp only; omega, by dsimp only; omega, by dsimp only; omega,
      by dsimp only; omega⟩
  · rw [i32_of_range (by omega) (by omega)]
    exact ⟨_, rfl, by dsimp only; omega, by dsimp only; omega, by dsimp only; omega,
      by dsimp only; omega⟩
  · exact ⟨a, rfl, by omega, by omega, by omega, by omega⟩

/-- The sum `v % D + D` of the wrap stays inside `int32_t` for a dimension up to `2 ^ 30`. -/
theorem wrap_sum_range {D : Int} (v : Int) (hD : 0 < D) (hD30 : D ≤ 2 ^ 30) :
    -2 ^ 31 ≤ Int.tmod v D + D ∧ Int.tmod v D + D < 2 ^ 31 := by
  have h1 := neg_lt_tmod v hD
  have h2 := Int.tmod_lt_of_pos v hD
  constructor <;> omega

theorem zeroGrid_getElem (c : Config) {i : Nat} (hi : i < c.W * c.H) :
    (zeroGrid c)[i]? = some 0 := by
  unfold zeroGrid
  rw [List.getElem?_replicate, if_pos hi]

/-! ## Two ticks, and a tick backwards -/

/-- The result of one tick as a function of the cell under the ant alone. -/
theorem update_ant_of_cell {c : Config} {a : Ant} {g : Grid} {w : Nat}
    (hc : c.wf) (hg : Grid.wf c g) (ha : a.inBounds c)
    (hw : g[a.y.toNat * c.W + a.x.toNat]? = some w) :
    ∃ t, c.turns[(w &&& 255) % c.n_turns]? = some t ∧
      update_ant c a g = some (neighbour c (turn_symbol a t),
        g.set (a.y.toNat * c.W + a.x.toNat)
          (cell_word c (((w &&& 255) % c.n_turns + 1) % c.n_turns))) := by
  obtain ⟨w1, t, hw1, ht, hu⟩ := update_ant_spec hc hg ha
  have hww : w1 = w := by
    rw [hw1] at hw
    exact Option.some.inj hw
  subst hww
  exact ⟨t, ht, hu⟩

theorem emod_add_cancel {D x1 x2 k : Int} (hD : 0 < D) (h1 : 0 ≤ x1) (h1' : x1 < D)
    (h2 : 0 ≤ x2) (h2' : x2 < D) (h : (x1 + k) % D = (x2 + k) % D) : x1 = x2 := by
  have hz : (x1 + k - (x2 + k)) % D = 0 := Int.emod_eq_emod_iff_emod_sub_eq_zero.mp h
  have hs : x1 + k - (x2 + k) = x1 - x2 := by ring
  rw [hs] at hz
  have hdvd : D ∣ x1 - x2 := Int.dvd_of_emod_eq_zero hz
  obtain ⟨q, hq⟩ := hdvd
  have hq0 : q = 0 := by
    by_contra hne
    rcases lt_or_gt_of_ne hne with hneg | hpos
    · have : D * q ≤ D * (-1) := Int.mul_le_mul_of_nonneg_left (by omega) (le_of_lt hD)
      omega
    · have : D * 1 ≤ D * q := Int.mul_le_mul_of_nonneg_left (by omega) (le_of_lt hD)
      omega
  rw [hq0, Int.mul_zero] at hq
  omega

theorem succ_mod_inj {R k1 k2 : Nat} (h1 : k1 < R) (h2 : k2 < R)
    (h : (k1 + 1) % R = (k2 + 1) % R) : k1 = k2 := by
  by_cases e1 : k1 + 1 = R
  · by_cases e2 : k2 + 1 = R
    · omega
    · rw [e1, Nat.mod_self, Nat.mod_eq_of_lt (by omega)] at h
      omega
  · by_cases e2 : k2 + 1 = R
    · rw [e2, Nat.mod_self, Nat.mod_eq_of_lt (by omega)] at h
      omega
    · rw [Nat.mod_eq_of_lt (by omega), Nat.mod_eq_of_lt (by omega)] at h
      omega

/-- The turn of a rule symbol is one-to-one on the headings `0..3`. -/
theorem turn_symbol_dir_inj {a1 a2 : Ant} (t : Char) (h1 : a1.dir < 4) (h2 : a2.dir < 4)
    (h : (turn_symbol a1 t).dir = (turn_symbol a2 t).dir) : a1.dir = a2.dir := by
  unfold turn_symbol turn_ant at h
  split_ifs at h <;> first | exact h | (dsimp only at h; omega)

/-- A cell that is 0 or `rgb (k / n_turns) | k` for a state `k` in `1 .. n_turns - 1` is
the word `set_state` writes for its own low byte. -/
theorem cell_of_wellFormed {c : Config} {w : Nat} (hc : c.wf) (hR : c.n_turns ≤ 256)
    (hw : w = 0 ∨ ∃ k, 0 < k ∧ k < c.n_turns ∧ w = rgb ((k : ℚ) / (c.n_turns : ℚ)) ||| k) :
    w &&& 255 < c.n_turns ∧ w = cell_word c (w &&& 255) := by
  have key : ∀ k, k < c.n_turns → cell_word c k &&& 255 = k := by
    intro k hk
    obtain ⟨col, hcol, _⟩ := cell_word_eq c (lt_of_lt_of_le hk hR)
    rw [hcol, and_255]
    omega
  rcases hw with h0 | ⟨k, hk0, hk, hwk⟩
  · subst h0
    have hz : cell_word c 0 = 0 := by simp [cell_word]
    exact ⟨by simpa using hc.2.2.2.2.2.1, by simp [hz]⟩
  · have hcw : w = cell_word c k := by
      unfold cell_word
      rw [if_pos (by omega)]
      exact hwk
    rw [hcw, key k hk]
    exact ⟨hk, rfl⟩

/-! ## `RLRL` against `RL` -/

/-- States of equal parity select the same symbol in `RLRL` and in `RL`: `R` for an even
state and `L` for an odd one. -/
theorem rl_symbol {W H k4 k2 : Nat} (h : k4 % 2 = k2 % 2) :
    ∃ t, (rlrlConfig W H).turns[k4 % (rlrlConfig W H).n_turns]? = some t ∧
      (rlConfig W H).turns[k2 % (rlConfig W H).n_turns]? = some t ∧
      (k4 % 2 = 0 → t = 'R') ∧ (k4 % 2 = 1 → t = 'L') := by
  show ∃ t, ['R', 'L', 'R', 'L'][k4 % 4]? = some t ∧ ['R', 'L'][k2 % 2]? = some t ∧
      (k4 % 2 = 0 → t = 'R') ∧ (k4 % 2 = 1 → t = 'L')
  have h4 : k4 % 4 = 0 ∨ k4 % 4 = 1 ∨ k4 % 4 = 2 ∨ k4 % 4 = 3 := by omega
  have h2 : k2 % 2 = 0 ∨ k2 % 2 = 1 := by omega
  rcases h4 with e | e | e | e <;> rcases h2 with e' | e' <;>
    first
    | (exfalso; omega)
    | (rw [e, e']; exact ⟨'R', rfl, rfl, fun _ => rfl, fun h1 => by omega⟩)
    | (rw [e, e']; exact ⟨'L', rfl, rfl, fun h0 => by omega, fun _ => rfl⟩)

theorem rlConfig_wf {W H : Nat} (hc : (rlrlConfig W H).wf) : (rlConfig W H).wf := by
  obtain ⟨h1, h2, h3, h4, h5, _, _⟩ := hc
  exact ⟨h1, h2, h3, h4, h5, (by decide : 0 < 2), (by decide : 2 < 2 ^ 32)⟩

/-- One tick under `RLRL` and one tick under `RL`, on grids whose cells have states of
equal parity, move the ant alike and keep the parities equal. -/
theorem rl_step {W H : Nat} {a : Ant} {g4 g2 : Grid} (hc : (rlrlConfig W H).wf)
    (hg4 : Grid.wf (rlrlConfig W H) g4) (hg2 : Grid.wf (rlConfig W H) g2)
    (ha : a.ok (rlrlConfig W H))
    (hrel : ∀ i : Nat, (g4[i]?).map (fun w => (w &&& 255) % 2) =
      (g2[i]?).map (fun w => (w &&& 255) % 2)) :
    ∃ (a1 : Ant) (g41 g21 : Grid), update_ant (rlrlConfig W H) a g4 = some (a1, g41) ∧
      update_ant (rlConfig W H) a g2 = some (a1, g21) ∧
      a1.ok (rlrlConfig W H) ∧
      Grid.wf (rlrlConfig W H) g41 ∧ Grid.wf (rlConfig W H) g21 ∧
      ∀ i : Nat, (g41[i]?).map (fun w => (w &&& 255) % 2) =
        (g21[i]?).map (fun w => (w &&& 255) % 2) := by
  have hc2 := rlConfig_wf hc
  have ha2 : a.inBounds (rlConfig W H) := ha.1
  obtain ⟨w4, t4, hw4, ht4, hu4⟩ := update_ant_spec hc hg4 ha.1
  obtain ⟨w2, t2, hw2, ht2, hu2⟩ := update_ant_spec hc2 hg2 ha2
  have hidx : a.y.toNat * (rlConfig W H).W + a.x.toNat =
      a.y.toNat * (rlrlConfig W H).W + a.x.toNat := rfl
  rw [hidx] at hw2 hu2
  have hpar : (w4 &&& 255) % 2 = (w2 &&& 255) % 2 := by
    have h := hrel (a.y.toNat * (rlrlConfig W H).W + a.x.toNat)
    rw [hw4, hw2] at h
    exact Option.some.inj h
  obtain ⟨t, e4, e2, _, _⟩ := rl_symbol (W := W) (H := H) hpar
  have et4 : t4 = t := by rw [ht4] at e4; exact Option.some.inj e4
  have et2 : t2 = t := by rw [ht2] at e2; exact Option.some.inj e2
  subst et4
  subst et2
  obtain ⟨_, hlt⟩ := cellIndex_of_inBounds hc ha.1
  have hlen4 : a.y.toNat * (rlrlConfig W H).W + a.x.toNat < g4.length := by
    rw [hg4]; exact hlt
  have hlen2 : a.y.toNat * (rlrlConfig W H).W + a.x.toNat < g2.length := by
    rw [hg2]; exact hlt
  have hn4 : (rlrlConfig W H).n_turns = 4 := rfl
  have hn2 : (rlConfig W H).n_turns = 2 := rfl
  have hlow4 : cell_word (rlrlConfig W H) (((w4 &&& 255) % 4 + 1) % 4) &&& 255 =
      ((w4 &&& 255) % 4 + 1) % 4 := by
    obtain ⟨col, hcol, _⟩ := cell_word_eq (rlrlConfig W H)
      (s := ((w4 &&& 255) % 4 + 1) % 4) (by omega)
    rw [hcol, and_255]
    omega
  have hlow2 : cell_word (rlConfig W H) (((w2 &&& 255) % 2 + 1) % 2) &&& 255 =
      ((w2 &&& 255) % 2 + 1) % 2 := by
    obtain ⟨col, hcol, _⟩ := cell_word_eq (rlConfig W H)
      (s := ((w2 &&& 255) % 2 + 1) % 2) (by omega)
    rw [hcol, and_255]
    omega
  rw [hn4] at hu4
  rw [hn2] at hu2
  refine ⟨_, _, _, hu4, hu2, neighbour_ok _ hc (turn_symbol_dir_lt a _ ha.2), ?_, ?_, ?_⟩
  · show (g4.set _ _).length = _
    rw [List.length_set]
    exact hg4
  · show (g2.set _ _).length = _
    rw [List.length_set]
    exact hg2
  · intro i
    by_cases hi : a.y.toNat * (rlrlConfig W H).W + a.x.toNat = i
    · subst hi
      rw [List.getElem?_set_self hlen4, List.getElem?_set_self hlen2, Option.map_some',
        Option.map_some', hlow4, hlow2]
      congr 1
      omega
    · rw [List.getElem?_set_ne hi, List.getElem?_set_ne hi]
      exact hrel i

theorem rl_update_ants {W H : Nat} (hc : (rlrlConfig W H).wf) (ants : List Ant) :
    ∀ g4 g2 : Grid, Grid.wf (rlrlConfig W H) g4 → Grid.wf (rlConfig W H) g2 →
      (∀ a ∈ ants, a.ok (rlrlConfig W H)) →
      (∀ i : Nat, (g4[i]?).map (fun w => (w &&& 255) % 2) =
        (g2[i]?).map (fun w => (w &&& 255) % 2)) →
      ∃ (as : List Ant) (g41 g21 : Grid), update_ants (rlrlConfig W H) ants g4 = some (as, g41) ∧
        update_ants (rlConfig W H) ants g2 = some (as, g21) ∧
        (∀ a ∈ as, a.ok (rlrlConfig W H)) ∧
        Grid.wf (rlrlConfig W H) g41 ∧ Grid.wf (rlConfig W H) g21 ∧
        ∀ i : Nat, (g41[i]?).map (fun w => (w &&& 255) % 2) =
          (g21[i]?).map (fun w => (w &&& 255) % 2) := by
  induction ants with
  | nil =>
    intro g4 g2 hg4 hg2 _ hrel
    exact ⟨[], g4, g2, rfl, rfl, fun a ha => absurd ha (List.not_mem_nil a), hg4, hg2, hrel⟩
  | cons a rest ih =>
    intro g4 g2 hg4 hg2 hall hrel
    obtain ⟨a1, g41, g21, h4, h2, hok, hw4, hw2, hrel1⟩ :=
      rl_step hc hg4 hg2 (hall a (List.mem_cons_self a rest)) hrel
    obtain ⟨as, g42, g22, k4, k2, hoks, hw42, hw22, hrel2⟩ :=
      ih g41 g21 hw4 hw2 (fun b hb => hall b (List.mem_cons_of_mem a hb)) hrel1
    refine ⟨a1 :: as, g42, g22, ?_, ?_, ?_, hw42, hw22, hrel2⟩
    · simp only [update_ants, h4, Option.some_bind, k4]
    · simp only [update_ants, h2, Option.some_bind, k2]
    · intro b hb
      rcases List.mem_cons.mp hb with e | e
      · rw [e]; exact hok
      · exact hoks b e

theorem rl_run {W H : Nat} (hc : (rlrlConfig W H).wf) (n : Nat) :
    ∀ (ants : List Ant) (g4 g2 : Grid), Grid.wf (rlrlConfig W H) g4 →
      Grid.wf (rlConfig W H) g2 → (∀ a ∈ ants, a.ok (rlrlConfig W H)) →
      (∀ i : Nat, (g4[i]?).map (fun w => (w &&& 255) % 2) =
        (g2[i]?).map (fun w => (w &&& 255) % 2)) →
      ∃ (as : List Ant) (g41 g21 : Grid), run (rlrlConfig W H) n ants g4 = some (as, g41) ∧
        run (rlConfig W H) n ants g2 = some (as, g21) ∧
        ∀ i : Nat, (g41[i]?).map (fun w => (w &&& 255) % 2) =
          (g21[i]?).map (fun w => (w &&& 255) % 2) := by
  induction n with
  | zero =>
    intro ants g4 g2 _ _ _ hrel
    exact ⟨ants, g4, g2, rfl, rfl, hrel⟩
  | succ n ih =>
    intro ants g4 g2 hg4 hg2 hall hrel
    obtain ⟨as, g41, g21, h4, h2, hok, hw4, hw2, hrel1⟩ :=
      rl_update_ants hc ants g4 g2 hg4 hg2 hall hrel
    obtain ⟨as2, g42, g22, k4, k2, hrel2⟩ := ih as g41 g21 hw4 hw2 hok hrel1
    exact ⟨as2, g42, g22, by simp only [run, h4, Option.some_bind, k4],
      by simp only [run, h2, Option.some_bind, k2], hrel2⟩

/-! ## Verified properties -/

/-- C1: for every heading `h` and the rule symbol `t` that `update_ant` reads under the
ant, the heading after the tick is `h` for `F`, `(h + 2) mod 4` for `B`, `(h + 1) mod 4`
for `L` (the call with `ANTRIGHT`) and `(h - 1) mod 4` for `R` (the call with `ANTLEFT`). -/
theorem C1_turn_table (c : Config) (a : Ant) (g : Grid)
    (hc : c.wf) (hg : Grid.wf c g) (ha : a.inBounds c) :
    ∃ k t r, get_state c g (u32 a.x) (u32 a.y) = some k ∧
      c.turns[k % c.n_turns]? = some t ∧ update_ant c a g = some r ∧
      (t = 'F' → r.1.dir = a.dir) ∧
      (t = 'B' → r.1.dir = (a.dir + 2) % 4) ∧
      (t = 'L' → (r.1.dir : Int) = ((a.dir : Int) + 1) % 4) ∧
      (t = 'R' → (r.1.dir : Int) = ((a.dir : Int) - 1) % 4) := by
  obtain ⟨w, t, hw, ht, hu⟩ := update_ant_spec hc hg ha
  refine ⟨w &&& 255, t, _, ?_, ht, hu, ?_, ?_, ?_, ?_⟩
  · unfold get_state
    rw [(cellIndex_of_inBounds hc ha).1, hw]
    rfl
  · intro h
    subst h
    rfl
  · intro h
    subst h
    rfl
  · intro h
    subst h
    show ((((a.dir : Int) + 1) % 4).toNat : Int) = _
    omega
  · intro h
    subst h
    show ((((a.dir : Int) + -1) % 4).toNat : Int) = _
    omega

/-- C1 at the source's constants, its zero grid and its first ant, (960,540) heading Up. -/
theorem C1_turn_table_witness :
    ∃ k t r, get_state srcConfig (zeroGrid srcConfig) (u32 960) (u32 540) = some k ∧
      srcConfig.turns[k % srcConfig.n_turns]? = some t ∧
      update_ant srcConfig ⟨960, 540, 0⟩ (zeroGrid srcConfig) = some r ∧
      (t = 'F' → r.1.dir = 0) ∧
      (t = 'B' → r.1.dir = (0 + 2) % 4) ∧
      (t = 'L' → (r.1.dir : Int) = (((0 : Nat) : Int) + 1) % 4) ∧
      (t = 'R' → (r.1.dir : Int) = (((0 : Nat) : Int) - 1) % 4) :=
  C1_turn_table srcConfig ⟨960, 540, 0⟩ (zeroGrid srcConfig)
    (by decide) (zeroGrid_wf srcConfig) (by decide)

/-- C2: after one tick of an ant that stands on the grid, `get_state` at the cell the ant
stood on is `(k + 1) mod n_turns`, `k` being `get_state` of that cell before the tick
(the rule string has at most 256 symbols, so that a state fits the low byte). -/
theorem C2_state_advances (c : Config) (a : Ant) (g : Grid)
    (hc : c.wf) (hR : c.n_turns ≤ 256) (hg : Grid.wf c g) (ha : a.inBounds c) :
    ∃ k r, get_state c g (u32 a.x) (u32 a.y) = some k ∧ update_ant c a g = some r ∧
      get_state c r.2 (u32 a.x) (u32 a.y) = some ((k + 1) % c.n_turns) := by
  obtain ⟨w, t, hw, ht, hu⟩ := update_ant_spec hc hg ha
  obtain ⟨hidx, hlt⟩ := cellIndex_of_inBounds hc ha
  have hlen : a.y.toNat * c.W + a.x.toNat < g.length := by rw [hg]; exact hlt
  have hR0 : 0 < c.n_turns := hc.2.2.2.2.2.1
  have hs : ((w &&& 255) % c.n_turns + 1) % c.n_turns < 256 :=
    lt_of_lt_of_le (Nat.mod_lt _ hR0) hR
  obtain ⟨col, hcol, _⟩ := cell_word_eq c hs
  refine ⟨w &&& 255, _, ?_, hu, ?_⟩
  · unfold get_state
    rw [hidx, hw]
    rfl
  · unfold get_state
    rw [hidx]
    show ((g.set _ _)[_]?).map _ = _
    have heq : ((w &&& 255) % c.n_turns + 1) % c.n_turns = ((w &&& 255) + 1) % c.n_turns := by
      rw [Nat.add_mod, Nat.mod_mod, ← Nat.add_mod]
    rw [List.getElem?_set_self hlen, hcol, Option.map_some', and_255, ← heq]
    congr 1
    omega

/-- C2 at the source's constants, its zero grid and its first ant, (960,540) heading Up. -/
theorem C2_state_advances_witness :
    ∃ k r, get_state srcConfig (zeroGrid srcConfig) (u32 960) (u32 540) = some k ∧
      update_ant srcConfig ⟨960, 540, 0⟩ (zeroGrid srcConfig) = some r ∧
      get_state srcConfig r.2 (u32 960) (u32 540) = some ((k + 1) % srcConfig.n_turns) :=
  C2_state_advances srcConfig ⟨960, 540, 0⟩ (zeroGrid srcConfig)
    (by decide) (by decide) (zeroGrid_wf srcConfig) (by decide)

/-- C3: after one tick of an ant that stands on the grid the new position is the toroidal
neighbour in the direction of the heading `h` the ant has after its turn:
`((x + dx) mod W, (y + dy) mod H)` with `(dx, dy)` equal to `(0,-1)` for Up, `(1,0)` for
Right, `(0,1)` for Down and `(-1,0)` for Left; on a grid at least two cells wide and two
cells high exactly one coordinate changes. -/
theorem C3_move_to_neighbour (c : Config) (a : Ant) (g : Grid)
    (hc : c.wf) (hg : Grid.wf c g) (ha : a.ok c) :
    ∃ r, update_ant c a g = some r ∧ r.1.dir < 4 ∧
      (r.1.dir = DIR.ANTUP.val → r.1.x = (a.x + 0) % c.W ∧ r.1.y = (a.y + -1) % c.H) ∧
      (r.1.dir = DIR.ANTRIGHT.val → r.1.x = (a.x + 1) % c.W ∧ r.1.y = (a.y + 0) % c.H) ∧
      (r.1.dir = DIR.ANTDOWN.val → r.1.x = (a.x + 0) % c.W ∧ r.1.y = (a.y + 1) % c.H) ∧
      (r.1.dir = DIR.ANTLEFT.val → r.1.x = (a.x + -1) % c.W ∧ r.1.y = (a.y + 0) % c.H) ∧
      (2 ≤ c.W → 2 ≤ c.H →
        (r.1.x ≠ a.x ∧ r.1.y = a.y) ∨ (r.1.x = a.x ∧ r.1.y ≠ a.y)) := by
  obtain ⟨w, t, _, _, hu⟩ := update_ant_spec hc hg ha.1
  obtain ⟨hx0, hx1, hy0, hy1⟩ := ha.1
  have hd := turn_symbol_dir_lt a t ha.2
  obtain ⟨hpx, hpy⟩ := turn_symbol_pos a t
  have hxid : a.x % (c.W : Int) = a.x := Int.emod_eq_of_lt hx0 hx1
  have hyid : a.y % (c.H : Int) = a.y := Int.emod_eq_of_lt hy0 hy1
  refine ⟨_, hu, hd, ?_, ?_, ?_, ?_, ?_⟩
  · intro h
    have h0 : (turn_symbol a t).dir = 0 := h
    simp [neighbour, dxy, h0, hpx, hpy]
  · intro h
    have h0 : (turn_symbol a t).dir = 1 := h
    simp [neighbour, dxy, h0, hpx, hpy]
  · intro h
    have h0 : (turn_symbol a t).dir = 2 := h
    simp [neighbour, dxy, h0, hpx, hpy]
  · intro h
    have h0 : (turn_symbol a t).dir = 3 := h
    simp [neighbour, dxy, h0, hpx, hpy]
  · intro hW hH
    have hWi : (2 : Int) ≤ c.W := by exact_mod_cast hW
    have hHi : (2 : Int) ≤ c.H := by exact_mod_cast hH
    have hcases : (turn_symbol a t).dir = 0 ∨ (turn_symbol a t).dir = 1 ∨
        (turn_symbol a t).dir = 2 ∨ (turn_symbol a t).dir = 3 := by omega
    rcases hcases with h0 | h0 | h0 | h0
    · right
      refine ⟨by simp [neighbour, dxy, h0, hpx, hxid], ?_⟩
      simpa [neighbour, dxy, h0, hpy] using emod_pred_ne hHi hy0 hy1
    · left
      refine ⟨?_, by simp [neighbour, dxy, h0, hpy, hyid]⟩
      simpa [neighbour, dxy, h0, hpx] using emod_succ_ne hWi hx0 hx1
    · right
      refine ⟨by simp [neighbour, dxy, h0, hpx, hxid], ?_⟩
      simpa [neighbour, dxy, h0, hpy] using emod_succ_ne hHi hy0 hy1
    · left
      refine ⟨?_, by simp [neighbour, dxy, h0, hpy, hyid]⟩
      simpa [neighbour, dxy, h0, hpx] using emod_pred_ne hWi hx0 hx1

/-- C3 at the source's constants, its zero grid and its first ant, (960,540) heading Up. -/
theorem C3_move_to_neighbour_witness :
    ∃ r, update_ant srcConfig ⟨960, 540, 0⟩ (zeroGrid srcConfig) = some r ∧ r.1.dir < 4 ∧
      (r.1.dir = DIR.ANTUP.val →
        r.1.x = ((960 : Int) + 0) % srcConfig.W ∧ r.1.y = ((540 : Int) + -1) % srcConfig.H) ∧
      (r.1.dir = DIR.ANTRIGHT.val →
        r.1.x = ((960 : Int) + 1) % srcConfig.W ∧ r.1.y = ((540 : Int) + 0) % srcConfig.H) ∧
      (r.1.dir = DIR.ANTDOWN.val →
        r.1.x = ((960 : Int) + 0) % srcConfig.W ∧ r.1.y = ((540 : Int) + 1) % srcConfig.H) ∧
      (r.1.dir = DIR.ANTLEFT.val →
        r.1.x = ((960 : Int) + -1) % srcConfig.W ∧ r.1.y = ((540 : Int) + 0) % srcConfig.H) ∧
      (2 ≤ srcConfig.W → 2 ≤ srcConfig.H →
        (r.1.x ≠ 960 ∧ r.1.y = 540) ∨ (r.1.x = 960 ∧ r.1.y ≠ 540)) :=
  C3_move_to_neighbour srcConfig ⟨960, 540, 0⟩ (zeroGrid srcConfig)
    (by decide) (zeroGrid_wf srcConfig) (by decide)

/-- C4: an ant with `0 <= x < W`, `0 <= y < H` and heading in `[0,4)` has, after one tick on
any grid, again `0 <= x < W`, `0 <= y < H` and heading in `[0,4)`; hence every ant of the
driver has them after any number `n` of rounds over any list of ants. -/
theorem C4_ant_invariant (c : Config) (a : Ant) (g : Grid) (n : Nat) (ants : List Ant)
    (hc : c.wf) (hg : Grid.wf c g) (ha : a.ok c) (hall : ∀ b ∈ ants, b.ok c) :
    (∃ r, update_ant c a g = some r ∧
      (0 ≤ r.1.x ∧ r.1.x < c.W ∧ 0 ≤ r.1.y ∧ r.1.y < c.H) ∧ r.1.dir < 4) ∧
    (∃ rs, run c n ants g = some rs ∧ rs.1.length = ants.length ∧
      ∀ b ∈ rs.1, (0 ≤ b.x ∧ b.x < c.W ∧ 0 ≤ b.y ∧ b.y < c.H) ∧ b.dir < 4) := by
  constructor
  · obtain ⟨r, hr, hok, _⟩ := update_ant_ok hc hg ha
    exact ⟨r, hr, hok⟩
  · obtain ⟨rs, hrs, hok, hlen, _⟩ := run_ok hc n ants g hg hall
    exact ⟨rs, hrs, hlen, hok⟩

/-- C4 at the source's constants, its zero grid, its two ants and the 100 rounds of one
frame. -/
theorem C4_ant_invariant_witness :
    (∃ r, update_ant srcConfig ⟨960, 540, 0⟩ (zeroGrid srcConfig) = some r ∧
      (0 ≤ r.1.x ∧ r.1.x < srcConfig.W ∧ 0 ≤ r.1.y ∧ r.1.y < srcConfig.H) ∧ r.1.dir < 4) ∧
    (∃ rs, run srcConfig 100 [⟨960, 540, 0⟩, ⟨700, 535, 2⟩] (zeroGrid srcConfig) = some rs ∧
      rs.1.length = [(⟨960, 540, 0⟩ : Ant), ⟨700, 535, 2⟩].length ∧
      ∀ b ∈ rs.1, (0 ≤ b.x ∧ b.x < srcConfig.W ∧ 0 ≤ b.y ∧ b.y < srcConfig.H) ∧ b.dir < 4) :=
  C4_ant_invariant srcConfig ⟨960, 540, 0⟩ (zeroGrid srcConfig) 100
    [⟨960, 540, 0⟩, ⟨700, 535, 2⟩]
    (by decide) (zeroGrid_wf srcConfig) (by decide) (by decide)

/-- C5: for a cell `(x, y)` of the grid and a state `k < n_turns` (a rule string of at most
256 symbols), after `set_state (grid, x, y, k)` the call `get_state (grid, x, y)` returns
`k`; the upper 24 bits of the cell are the upper 24 bits of `rgb (k / n_turns)` when `k` is
not 0, and the whole cell is 0 when `k` is 0. -/
theorem C5_set_get (c : Config) (g : Grid) (x y k : Nat)
    (hc : c.wf) (hR : c.n_turns ≤ 256) (hg : Grid.wf c g)
    (hx : x < c.W) (hy : y < c.H) (hk : k < c.n_turns) :
    ∃ g1 w, set_state c g x y k = some g1 ∧ get_state c g1 x y = some k ∧
      g1[y * c.W + x]? = some w ∧
      (k ≠ 0 → w >>> 8 = rgb ((k : ℚ) / (c.n_turns : ℚ)) >>> 8) ∧
      (k = 0 → w = 0) := by
  obtain ⟨hidx, hlt⟩ := cellIndex_of_lt hc hx hy
  have hlen : y * c.W + x < g.length := by rw [hg]; exact hlt
  have hk256 : k < 256 := lt_of_lt_of_le hk hR
  obtain ⟨col, hcol, hrgb, hzero, _⟩ := cell_word_eq c hk256
  refine ⟨g.set (y * c.W + x) (cell_word c k), cell_word c k, ?_, ?_, ?_, ?_, ?_⟩
  · unfold set_state
    simp only [hidx, if_pos hlen]
  · unfold get_state
    rw [hidx, List.getElem?_set_self hlen, Option.map_some', hcol, and_255]
    congr 1
    omega
  · exact List.getElem?_set_self hlen
  · intro hk0
    rw [hrgb hk0, hcol, shr_8, shr_8]
    omega
  · intro hk0
    have h0 := hzero hk0
    rw [hcol]
    omega

/-- C5 at the source's constants, its zero grid, cell (960,540) and state 3. -/
theorem C5_set_get_witness :
    ∃ g1 w, set_state srcConfig (zeroGrid srcConfig) 960 540 3 = some g1 ∧
      get_state srcConfig g1 960 540 = some 3 ∧
      g1[540 * srcConfig.W + 960]? = some w ∧
      (3 ≠ 0 → w >>> 8 = rgb (((3 : Nat) : ℚ) / (srcConfig.n_turns : ℚ)) >>> 8) ∧
      (3 = 0 → w = 0) :=
  C5_set_get srcConfig (zeroGrid srcConfig) 960 540 3
    (by decide) (by decide) (zeroGrid_wf srcConfig) (by decide) (by decide) (by decide)

/-- C6: in every grid reached from the zero grid, by any schedule of ticks of ants that
stand on the grid and by any number of rounds of the driver, every cell has a state (low
byte) below `n_turns` and a colour (upper 24 bits) that is 0 if and only if the state is 0
(the rule string has at most 256 symbols). -/
theorem C6_reachable_cells (c : Config) (sched : List Ant) (n : Nat) (ants : List Ant)
    (hc : c.wf) (hR : c.n_turns ≤ 256)
    (hsched : ∀ a ∈ sched, a.inBounds c) (hants : ∀ a ∈ ants, a.ok c) :
    (∃ g, tick_seq c sched (zeroGrid c) = some g ∧ g.length = c.W * c.H ∧
      ∀ w ∈ g, w &&& 255 < c.n_turns ∧ (w >>> 8 = 0 ↔ w &&& 255 = 0)) ∧
    (∃ rs, run c n ants (zeroGrid c) = some rs ∧ rs.2.length = c.W * c.H ∧
      ∀ w ∈ rs.2, w &&& 255 < c.n_turns ∧ (w >>> 8 = 0 ↔ w &&& 255 = 0)) := by
  have h0 : (0 : Nat) &&& 255 < c.n_turns ∧ ((0 : Nat) >>> 8 = 0 ↔ (0 : Nat) &&& 255 = 0) :=
    ⟨by simpa using hc.2.2.2.2.2.1, by simp⟩
  constructor
  · exact tick_seq_cells _ hc (cell_word_index_colour c hR) sched _ (zeroGrid_wf c) hsched
      (zeroGrid_cells c _ h0)
  · obtain ⟨rs, hrs, _, _, hwf⟩ := run_ok hc n ants _ (zeroGrid_wf c) hants
    exact ⟨rs, hrs, hwf, run_cells _ hc (cell_word_index_colour c hR) n ants _ (zeroGrid_wf c)
      hants (zeroGrid_cells c _ h0) rs hrs⟩

/-- C6 at the source's constants: a schedule of three ticks, and the 100 rounds of one
frame of its two ants. -/
theorem C6_reachable_cells_witness :
    (∃ g, tick_seq srcConfig [⟨960, 540, 0⟩, ⟨960, 540, 3⟩, ⟨0, 1079, 2⟩] (zeroGrid srcConfig)
        = some g ∧ g.length = srcConfig.W * srcConfig.H ∧
      ∀ w ∈ g, w &&& 255 < srcConfig.n_turns ∧ (w >>> 8 = 0 ↔ w &&& 255 = 0)) ∧
    (∃ rs, run srcConfig 100 [⟨960, 540, 0⟩, ⟨700, 535, 2⟩] (zeroGrid srcConfig) = some rs ∧
      rs.2.length = srcConfig.W * srcConfig.H ∧
      ∀ w ∈ rs.2, w &&& 255 < srcConfig.n_turns ∧ (w >>> 8 = 0 ↔ w &&& 255 = 0)) :=
  C6_reachable_cells srcConfig [⟨960, 540, 0⟩, ⟨960, 540, 3⟩, ⟨0, 1079, 2⟩] 100
    [⟨960, 540, 0⟩, ⟨700, 535, 2⟩]
    (by decide) (by decide) (by decide) (by decide)

/-- C7, as stated, fails: on the 10 x 10 grid with `RLRL` the ant that starts on cell
(5,5) writes that cell in round 1 (the cell is not 0 after it) and stands on it again at
the start of rounds 5, 9 and 17; after round 17 the state of the cell is back to 0 and its
colour bits are 0, while the colour bits of `rgb (0 / 4)` are those of red, `0xFF0000`. -/
theorem C7_counterexample :
    (∃ rs w, run scenarioConfig 1 [⟨5, 5, 0⟩] (zeroGrid scenarioConfig) = some rs ∧
      rs.2[5 * scenarioConfig.W + 5]? = some w ∧ w ≠ 0) ∧
    (∃ rs w, run scenarioConfig 17 [⟨5, 5, 0⟩] (zeroGrid scenarioConfig) = some rs ∧
      rs.2[5 * scenarioConfig.W + 5]? = some w ∧ w >>> 8 = 0 ∧
      rgb (((w &&& 255 : Nat) : ℚ) / (scenarioConfig.n_turns : ℚ)) >>> 8 = 16711680 ∧
      w >>> 8 ≠ rgb (((w &&& 255 : Nat) : ℚ) / (scenarioConfig.n_turns : ℚ)) >>> 8) := by
  have h1 : (run scenarioConfig 1 [⟨5, 5, 0⟩] (zeroGrid scenarioConfig)).bind
      (fun rs => rs.2[5 * scenarioConfig.W + 5]?) = some 2147418113 := by decide!
  have h17 : (run scenarioConfig 17 [⟨5, 5, 0⟩] (zeroGrid scenarioConfig)).bind
      (fun rs => rs.2[5 * scenarioConfig.W + 5]?) = some 0 := by decide!
  have hrgb : rgb ((((0 : Nat) &&& 255 : Nat) : ℚ) / (scenarioConfig.n_turns : ℚ)) >>> 8
      = 16711680 := by decide!
  obtain ⟨rs1, hrs1, hw1⟩ := Option.bind_eq_some.mp h1
  obtain ⟨rs, hrs, hw⟩ := Option.bind_eq_some.mp h17
  refine ⟨⟨rs1, _, hrs1, hw1, by decide⟩, rs, 0, hrs, hw, by decide, hrgb, ?_⟩
  rw [hrgb]
  decide

/-- C7, amended: in every grid reached from the zero grid, by any schedule of ticks of ants
that stand on the grid and by any number of rounds of the driver, every cell whose state
`k` is not 0 has the colour bits of `rgb (k / n_turns)`, and every cell whose state is 0
is the word 0 (the rule string has at most 256 symbols). -/
theorem C7_colour_of_state (c : Config) (sched : List Ant) (n : Nat) (ants : List Ant)
    (hc : c.wf) (hR : c.n_turns ≤ 256)
    (hsched : ∀ a ∈ sched, a.inBounds c) (hants : ∀ a ∈ ants, a.ok c) :
    (∃ g, tick_seq c sched (zeroGrid c) = some g ∧ g.length = c.W * c.H ∧
      ∀ w ∈ g, (w &&& 255 ≠ 0 →
          w >>> 8 = rgb (((w &&& 255 : Nat) : ℚ) / (c.n_turns : ℚ)) >>> 8) ∧
        (w &&& 255 = 0 → w = 0)) ∧
    (∃ rs, run c n ants (zeroGrid c) = some rs ∧ rs.2.length = c.W * c.H ∧
      ∀ w ∈ rs.2, (w &&& 255 ≠ 0 →
          w >>> 8 = rgb (((w &&& 255 : Nat) : ℚ) / (c.n_turns : ℚ)) >>> 8) ∧
        (w &&& 255 = 0 → w = 0)) := by
  have h0 : ((0 : Nat) &&& 255 ≠ 0 →
      (0 : Nat) >>> 8 = rgb ((((0 : Nat) &&& 255 : Nat) : ℚ) / (c.n_turns : ℚ)) >>> 8) ∧
      ((0 : Nat) &&& 255 = 0 → (0 : Nat) = 0) :=
    ⟨fun h => absurd (Nat.zero_and 255) h, fun _ => rfl⟩
  constructor
  · exact tick_seq_cells _ hc (cell_word_rgb c hR) sched _ (zeroGrid_wf c) hsched
      (zeroGrid_cells c _ h0)
  · obtain ⟨rs, hrs, _, _, hwf⟩ := run_ok hc n ants _ (zeroGrid_wf c) hants
    exact ⟨rs, hrs, hwf, run_cells _ hc (cell_word_rgb c hR) n ants _ (zeroGrid_wf c)
      hants (zeroGrid_cells c _ h0) rs hrs⟩

/-- C7, amended, at the source's constants: a schedule of three ticks, and the 100 rounds
of one frame of its two ants. -/
theorem C7_colour_of_state_witness :
    (∃ g, tick_seq srcConfig [⟨960, 540, 0⟩, ⟨960, 540, 3⟩, ⟨0, 1079, 2⟩] (zeroGrid srcConfig)
        = some g ∧ g.length = srcConfig.W * srcConfig.H ∧
      ∀ w ∈ g, (w &&& 255 ≠ 0 →
          w >>> 8 = rgb (((w &&& 255 : Nat) : ℚ) / (srcConfig.n_turns : ℚ)) >>> 8) ∧
        (w &&& 255 = 0 → w = 0)) ∧
    (∃ rs, run srcConfig 100 [⟨960, 540, 0⟩, ⟨700, 535, 2⟩] (zeroGrid srcConfig) = some rs ∧
      rs.2.length = srcConfig.W * srcConfig.H ∧
      ∀ w ∈ rs.2, (w &&& 255 ≠ 0 →
          w >>> 8 = rgb (((w &&& 255 : Nat) : ℚ) / (srcConfig.n_turns : ℚ)) >>> 8) ∧
        (w &&& 255 = 0 → w = 0)) :=
  C7_colour_of_state srcConfig [⟨960, 540, 0⟩, ⟨960, 540, 3⟩, ⟨0, 1079, 2⟩] 100
    [⟨960, 540, 0⟩, ⟨700, 535, 2⟩]
    (by decide) (by decide) (by decide) (by decide)

/-- C8, as stated, fails: on the zero 10 x 10 grid with `RLRL` no tick of the ant at (5,5)
heading Up ends with the heading Right. -/
theorem C8_counterexample :
    ¬ ∃ r, update_ant scenarioConfig ⟨5, 5, DIR.ANTUP.val⟩ (zeroGrid scenarioConfig) = some r ∧
      get_state scenarioConfig r.2 5 5 = some 1 ∧ r.1.dir = DIR.ANTRIGHT.val ∧
      r.1.inBounds scenarioConfig := by
  rintro ⟨r, hr, _, hd, _⟩
  have h : (update_ant scenarioConfig ⟨5, 5, DIR.ANTUP.val⟩ (zeroGrid scenarioConfig)).map
      (fun r => r.1.dir) = some 3 := by decide!
  rw [hr, Option.map_some', hd] at h
  exact absurd h (by decide)

/-- C8, amended: on the zero 10 x 10 grid with `RLRL`, one tick of the ant at (5,5) heading
Up leaves state 1 in cell (5,5), turns the ant by the call with `ANTLEFT` that the symbol
`R` issues, so that its heading is Left (Up - 1 mod 4), and moves it to (4,5), a position
in `[0,10) x [0,10)`. -/
theorem C8_scenario :
    ∃ r, update_ant scenarioConfig ⟨5, 5, DIR.ANTUP.val⟩ (zeroGrid scenarioConfig) = some r ∧
      get_state scenarioConfig r.2 5 5 = some 1 ∧
      scenarioConfig.turns[0]? = some 'R' ∧
      r.1.dir = DIR.ANTLEFT.val ∧ (r.1.dir : Int) = ((DIR.ANTUP.val : Int) - 1) % 4 ∧
      r.1.x = 4 ∧ r.1.y = 5 ∧
      (0 ≤ r.1.x ∧ r.1.x < 10 ∧ 0 ≤ r.1.y ∧ r.1.y < 10) := by
  have h : (update_ant scenarioConfig ⟨5, 5, DIR.ANTUP.val⟩ (zeroGrid scenarioConfig)).bind
      (fun r => (get_state scenarioConfig r.2 5 5).map (fun k => (r.1, k)))
      = some (⟨4, 5, 3⟩, 1) := by decide!
  obtain ⟨r, hr, hk⟩ := Option.bind_eq_some.mp h
  obtain ⟨k, hk1, hk2⟩ := Option.map_eq_some'.mp hk
  have hr1 : r.1 = ⟨4, 5, 3⟩ := congrArg Prod.fst hk2
  have hk3 : k = 1 := congrArg Prod.snd hk2
  refine ⟨r, hr, by rw [hk1, hk3], rfl, ?_, ?_, ?_, ?_, ?_⟩ <;> rw [hr1] <;> decide

/-- C9: for a positive dimension `D` and a value `v` for which `v % D + D` does not
overflow, the expression `(v % D + D) % D` with C's truncating `%` is the Euclidean
remainder of `v`: a value in `[0, D)` congruent to `v` modulo `D`.  In particular -1 wraps
to `D - 1` (19 for `D = 20`), and an ant at `x = 0` whose tick moves it Left ends at
`x = WIDTH - 1`. -/
theorem C9_wrap_euclidean (D v : Int) (c : Config) (a : Ant) (g : Grid)
    (hD : 0 < D) (hno : Int.tmod v D + D < 2 ^ 31)
    (hc : c.wf) (hg : Grid.wf c g) (ha : a.inBounds c) (hx : a.x = 0) :
    wrap D v = some (v % D) ∧ 0 ≤ v % D ∧ v % D < D ∧ D ∣ v - v % D ∧
      (D < 2 ^ 31 → wrap D (-1) = some (D - 1)) ∧
      wrap 20 (-1) = some 19 ∧
      (∃ r, update_ant c a g = some r ∧ (r.1.dir = DIR.ANTLEFT.val → r.1.x = c.W - 1)) := by
  refine ⟨wrap_of_noOverflow hD hno, Int.emod_nonneg _ (ne_of_gt hD), Int.emod_lt_of_pos _ hD,
    Int.dvd_sub_of_emod_eq rfl, ?_, by decide, ?_⟩
  · intro hD31
    have h1 : (-1 : Int) % D = D - 1 := by
      have := emod_pred_eq (x := 0) hD (le_refl 0) hD
      simpa using this
    have hle : Int.tmod (-1) D ≤ 0 := tmod_negSucc_nonpos 0 hD
    rw [wrap_of_noOverflow hD (by omega), h1]
  · obtain ⟨w, t, _, _, hu⟩ := update_ant_spec hc hg ha
    refine ⟨_, hu, fun hd => ?_⟩
    have hd3 : (turn_symbol a t).dir = 3 := hd
    have hx1 : (turn_symbol a t).x = 0 := by rw [(turn_symbol_pos a t).1]; exact hx
    have hW : (0 : Int) < c.W := by exact_mod_cast hc.1
    have key : (neighbour c (turn_symbol a t)).x = (c.W : Int) - 1 := by
      have := emod_pred_eq (x := 0) hW (le_refl 0) hW
      simpa [neighbour, dxy, hd3, hx1] using this
    exact key

/-- C9 at `D = 20`, `v = -1` and the ant at (0,0) of the zero 20 x 20 grid that heads Up
and is turned Left by the symbol `R`. -/
theorem C9_wrap_euclidean_witness :
    wrap 20 (-1) = some ((-1) % 20) ∧ 0 ≤ (-1 : Int) % 20 ∧ (-1 : Int) % 20 < 20 ∧
      (20 : Int) ∣ -1 - (-1) % 20 ∧
      ((20 : Int) < 2 ^ 31 → wrap 20 (-1) = some (20 - 1)) ∧
      wrap 20 (-1) = some 19 ∧
      (∃ r, update_ant boundaryConfig ⟨0, 0, 0⟩ (zeroGrid boundaryConfig) = some r ∧
        (r.1.dir = DIR.ANTLEFT.val → r.1.x = boundaryConfig.W - 1)) :=
  C9_wrap_euclidean 20 (-1) boundaryConfig ⟨0, 0, 0⟩ (zeroGrid boundaryConfig)
    (by decide) (by decide) (by decide) (zeroGrid_wf boundaryConfig) (by decide) rfl

/-- C10: the wrap `(v % D + D) % D` is idempotent: for `D > 0` and a value `v` for which
neither application overflows, wrapping the wrapped value gives the wrapped value, and a
value with `0 <= v < D` is left as it is. -/
theorem C10_wrap_idempotent (D v : Int) (hD : 0 < D)
    (hno : Int.tmod v D + D < 2 ^ 31) (hno2 : Int.tmod (v % D) D + D < 2 ^ 31) :
    (wrap D v).bind (wrap D) = wrap D v ∧ (0 ≤ v → v < D → wrap D v = some v) := by
  have h1 : wrap D v = some (v % D) := wrap_of_noOverflow hD hno
  have h2 : wrap D (v % D) = some (v % D % D) := wrap_of_noOverflow hD hno2
  refine ⟨?_, fun h0 hlt => ?_⟩
  · rw [h1, Option.some_bind, h2, Int.emod_emod_of_dvd v (dvd_refl D)]
  · rw [h1, Int.emod_eq_of_lt h0 hlt]

/-- C10 at `D = 20` and `v = -1`. -/
theorem C10_wrap_idempotent_witness :
    (wrap 20 (-1)).bind (wrap 20) = wrap 20 (-1) ∧
      ((0 : Int) ≤ -1 → (-1 : Int) < 20 → wrap 20 (-1) = some (-1)) :=
  C10_wrap_idempotent 20 (-1) (by decide) (by decide) (by decide)

/-- C11: `rgb` sweeps the hue wheel red, yellow, green, cyan, blue, magenta: when the
normalized value `n = (int32_t)(ratio * 256 * 6)` that the function computes (the
products rounded to `double`, the conversion defined) is 0, 256, 512, 768, 1024 or 1280 the
(red, green, blue) channels are (255,0,0), (255,255,0), (0,255,0), (0,255,255), (0,0,255),
(255,0,255), with red in bits 24-31, green in bits 16-23, blue in bits 8-15 of a 32-bit
word whose low byte is 0; and `rgb (0 / R)` is pure red, `0xFF000000`, for every rule
length `R` (not 0, so that the quotient is defined in C). -/
theorem C11_hue_wheel (ratio : ℚ) (n : Int) (R : Nat)
    (hn : cast_i32 (rgb_product ratio) = some n) (_hR : 0 < R) :
    rgb ratio &&& 255 = 0 ∧ rgb ratio < 2 ^ 32 ∧
    (n = 0 → chan_red (rgb ratio) = 255 ∧ chan_grn (rgb ratio) = 0 ∧ chan_blu (rgb ratio) = 0) ∧
    (n = 256 →
      chan_red (rgb ratio) = 255 ∧ chan_grn (rgb ratio) = 255 ∧ chan_blu (rgb ratio) = 0) ∧
    (n = 512 → chan_red (rgb ratio) = 0 ∧ chan_grn (rgb ratio) = 255 ∧ chan_blu (rgb ratio) = 0) ∧
    (n = 768 →
      chan_red (rgb ratio) = 0 ∧ chan_grn (rgb ratio) = 255 ∧ chan_blu (rgb ratio) = 255) ∧
    (n = 1024 → chan_red (rgb ratio) = 0 ∧ chan_grn (rgb ratio) = 0 ∧ chan_blu (rgb ratio) = 255) ∧
    (n = 1280 →
      chan_red (rgb ratio) = 255 ∧ chan_grn (rgb ratio) = 0 ∧ chan_blu (rgb ratio) = 255) ∧
    rgb ((0 : ℚ) / (R : ℚ)) = 0xFF000000 := by
  have hrgb : rgb ratio = rgb_norm n := by unfold rgb; rw [(cast_i32_some hn).1]
  have hchan : 0 ≤ n → n < 1536 → ∀ r0 g0 b0 : Nat,
      ((n < 256 → r0 = 255 ∧ (g0 : Int) = n ∧ b0 = 0) ∧
       (256 ≤ n → n < 512 → (r0 : Int) = 511 - n ∧ g0 = 255 ∧ b0 = 0) ∧
       (512 ≤ n → n < 768 → r0 = 0 ∧ g0 = 255 ∧ (b0 : Int) = n - 512) ∧
       (768 ≤ n → n < 1024 → r0 = 0 ∧ (g0 : Int) = 1023 - n ∧ b0 = 255) ∧
       (1024 ≤ n → n < 1280 → (r0 : Int) = n - 1024 ∧ g0 = 0 ∧ b0 = 255) ∧
       (1280 ≤ n → r0 = 255 ∧ g0 = 0 ∧ (b0 : Int) = 1535 - n)) →
      chan_red (rgb ratio) = r0 ∧ chan_grn (rgb ratio) = g0 ∧ chan_blu (rgb ratio) = b0 := by
    intro h0 h1 r0 g0 b0 hspec
    obtain ⟨r, g, b, _, q1, q2, q3, hd⟩ := rgb_norm_chans n h0 h1
    rw [hrgb, q1, q2, q3]
    omega
  refine ⟨?_, ?_, ?_, ?_, ?_, ?_, ?_, ?_, ?_⟩
  · obtain ⟨col, hcol, _⟩ := rgb_norm_eq n
    rw [hrgb, hcol, and_255]
    omega
  · by_cases hin : 0 ≤ n ∧ n < 1536
    · obtain ⟨r, g, b, q, _, _, _, hd⟩ := rgb_norm_chans n hin.1 hin.2
      rw [hrgb, q]
      omega
    · rw [hrgb, rgb_norm_outside n (by omega)]
      decide
  · intro h
    exact hchan (by omega) (by omega) 255 0 0 (by omega)
  · intro h
    exact hchan (by omega) (by omega) 255 255 0 (by omega)
  · intro h
    exact hchan (by omega) (by omega) 0 255 0 (by omega)
  · intro h
    exact hchan (by omega) (by omega) 0 255 255 (by omega)
  · intro h
    exact hchan (by omega) (by omega) 0 0 255 (by omega)
  · intro h
    exact hchan (by omega) (by omega) 255 0 255 (by omega)
  · have hz : trunc32 (rgb_product ((0 : ℚ) / (R : ℚ))) = 0 := by
      rw [zero_div]
      decide!
    unfold rgb
    rw [hz]
    decide!

/-- C11 at ratio 1/2, whose normalized value is 768 (cyan), and the source's rule length 4. -/
theorem C11_hue_wheel_witness :
    rgb (1 / 2) &&& 255 = 0 ∧ rgb (1 / 2) < 2 ^ 32 ∧
    ((768 : Int) = 0 →
      chan_red (rgb (1 / 2)) = 255 ∧ chan_grn (rgb (1 / 2)) = 0 ∧ chan_blu (rgb (1 / 2)) = 0) ∧
    ((768 : Int) = 256 →
      chan_red (rgb (1 / 2)) = 255 ∧ chan_grn (rgb (1 / 2)) = 255 ∧ chan_blu (rgb (1 / 2)) = 0) ∧
    ((768 : Int) = 512 →
      chan_red (rgb (1 / 2)) = 0 ∧ chan_grn (rgb (1 / 2)) = 255 ∧ chan_blu (rgb (1 / 2)) = 0) ∧
    ((768 : Int) = 768 →
      chan_red (rgb (1 / 2)) = 0 ∧ chan_grn (rgb (1 / 2)) = 255 ∧ chan_blu (rgb (1 / 2)) = 255) ∧
    ((768 : Int) = 1024 →
      chan_red (rgb (1 / 2)) = 0 ∧ chan_grn (rgb (1 / 2)) = 0 ∧ chan_blu (rgb (1 / 2)) = 255) ∧
    ((768 : Int) = 1280 →
      chan_red (rgb (1 / 2)) = 255 ∧ chan_grn (rgb (1 / 2)) = 0 ∧ chan_blu (rgb (1 / 2)) = 255) ∧
    rgb ((0 : ℚ) / ((4 : Nat) : ℚ)) = 0xFF000000 :=
  C11_hue_wheel (1 / 2) 768 4 (by decide!) (by decide)

/-- C12: `rgb` is continuous across the hue wheel: for two ratios whose normalized values,
as the function computes them, are `n` and `n + 1` with `0 <= n < 1535` (the region
boundaries 255, 511, 767, 1023, 1279 among them), each of the red, green and blue
channels of the two words differ by at most 1. -/
theorem C12_continuity (ratio1 ratio2 : ℚ) (n : Int)
    (hn1 : cast_i32 (rgb_product ratio1) = some n)
    (hn2 : cast_i32 (rgb_product ratio2) = some (n + 1))
    (h0 : 0 ≤ n) (h1 : n < 1535) :
    Int.natAbs ((chan_red (rgb ratio1) : Int) - (chan_red (rgb ratio2) : Int)) ≤ 1 ∧
    Int.natAbs ((chan_grn (rgb ratio1) : Int) - (chan_grn (rgb ratio2) : Int)) ≤ 1 ∧
    Int.natAbs ((chan_blu (rgb ratio1) : Int) - (chan_blu (rgb ratio2) : Int)) ≤ 1 := by
  have e1 : rgb ratio1 = rgb_norm n := by unfold rgb; rw [(cast_i32_some hn1).1]
  have e2 : rgb ratio2 = rgb_norm (n + 1) := by unfold rgb; rw [(cast_i32_some hn2).1]
  obtain ⟨r, g, b, _, q1, q2, q3, hd⟩ := rgb_norm_chans n h0 (by omega)
  obtain ⟨r', g', b', _, p1, p2, p3, hd'⟩ := rgb_norm_chans (n + 1) (by omega) (by omega)
  rw [e1, e2, q1, q2, q3, p1, p2, p3]
  omega

/-- C12 at the boundary between the first two regions: ratios 255/1536 and 1/6, normalized
values 255 and 256. -/
theorem C12_continuity_witness :
    Int.natAbs ((chan_red (rgb (255 / 1536)) : Int) - (chan_red (rgb (1 / 6)) : Int)) ≤ 1 ∧
    Int.natAbs ((chan_grn (rgb (255 / 1536)) : Int) - (chan_grn (rgb (1 / 6)) : Int)) ≤ 1 ∧
    Int.natAbs ((chan_blu (rgb (255 / 1536)) : Int) - (chan_blu (rgb (1 / 6)) : Int)) ≤ 1 :=
  C12_continuity (255 / 1536) (1 / 6) 255 (by decide!) (by decide!) (by decide) (by decide)

/-- C13: in a run of ticks from the zero grid, by any schedule of ants that stand on the
grid and by any number of rounds of the driver, a cell `(x, y)` on which no ant stood at
the start of one of its ticks still holds the word 0: `get_state` returns 0 and the
colour is black. -/
theorem C13_unvisited_cells (c : Config) (sched : List Ant) (n : Nat) (ants : List Ant)
    (x y : Nat) (hc : c.wf) (hx : x < c.W) (hy : y < c.H)
    (hsched : ∀ a ∈ sched, a.inBounds c) (hants : ∀ a ∈ ants, a.ok c)
    (hfree : ∀ a ∈ sched, ¬ (a.x = x ∧ a.y = y))
    (hfree2 : ∀ a ∈ run_sched c n ants (zeroGrid c), ¬ (a.x = x ∧ a.y = y)) :
    (∃ g, tick_seq c sched (zeroGrid c) = some g ∧ g[y * c.W + x]? = some 0 ∧
      get_state c g x y = some 0) ∧
    (∃ rs, run c n ants (zeroGrid c) = some rs ∧ rs.2[y * c.W + x]? = some 0 ∧
      get_state c rs.2 x y = some 0) := by
  obtain ⟨hidx, hlt⟩ := cellIndex_of_lt hc hx hy
  have hz := zeroGrid_getElem c hlt
  have hget : ∀ g : Grid, g[y * c.W + x]? = some 0 → get_state c g x y = some 0 := by
    intro g h
    unfold get_state
    rw [hidx, h]
    rfl
  constructor
  · obtain ⟨g, hg, _, _⟩ := tick_seq_cells (fun _ => True) hc (fun _ _ => trivial) sched _
      (zeroGrid_wf c) hsched (fun _ _ => trivial)
    have h0 : g[y * c.W + x]? = some 0 := by
      rw [tick_seq_untouched hc sched _ (zeroGrid_wf c) hsched g hg x y hx hfree]
      exact hz
    exact ⟨g, hg, h0, hget g h0⟩
  · obtain ⟨rs, hrs, _, _, _⟩ := run_ok hc n ants _ (zeroGrid_wf c) hants
    have hseq := run_tick_seq c n ants _ rs hrs
    have hin : ∀ a ∈ run_sched c n ants (zeroGrid c), a.inBounds c :=
      fun a ha => (run_sched_ok hc n ants _ (zeroGrid_wf c) hants a ha).1
    have h0 : rs.2[y * c.W + x]? = some 0 := by
      rw [tick_seq_untouched hc _ _ (zeroGrid_wf c) hin rs.2 hseq x y hx hfree2]
      exact hz
    exact ⟨rs, hrs, h0, hget rs.2 h0⟩

/-- C13 at cell (0,0) of the 10 x 10 grid: a schedule of three ticks, and 17 rounds of the
ant that starts on (5,5). -/
theorem C13_unvisited_cells_witness :
    (∃ g, tick_seq scenarioConfig [⟨5, 5, 0⟩, ⟨5, 5, 1⟩, ⟨0, 9, 3⟩] (zeroGrid scenarioConfig)
        = some g ∧ g[0 * scenarioConfig.W + 0]? = some 0 ∧
      get_state scenarioConfig g 0 0 = some 0) ∧
    (∃ rs, run scenarioConfig 17 [⟨5, 5, 0⟩] (zeroGrid scenarioConfig) = some rs ∧
      rs.2[0 * scenarioConfig.W + 0]? = some 0 ∧ get_state scenarioConfig rs.2 0 0 = some 0) :=
  C13_unvisited_cells scenarioConfig [⟨5, 5, 0⟩, ⟨5, 5, 1⟩, ⟨0, 9, 3⟩] 17 [⟨5, 5, 0⟩] 0 0
    (by decide) (by decide) (by decide) (by decide) (by decide) (by decide) (by decide!)

/-- C14: one tick of an ant that stands on the grid at `(x, y)` changes at most the cell
at index `y * WIDTH + x`: the buffer keeps its length and every other cell, and the tick
of ant `i` of the array, `update_ant (&ants[i], grid)`, keeps every other ant. -/
theorem C14_frame (c : Config) (ants : List Ant) (i : Nat) (a : Ant) (g : Grid)
    (hc : c.wf) (hg : Grid.wf c g) (hi : ants[i]? = some a) (ha : a.inBounds c) :
    ∃ r, update_ant c a g = some r ∧ r.2.length = g.length ∧
      (∀ j, j ≠ a.y.toNat * c.W + a.x.toNat → r.2[j]? = g[j]?) ∧
      ∃ ants1, update_ant_at c ants i g = some (ants1, r.2) ∧ ants1.length = ants.length ∧
        ants1[i]? = some r.1 ∧ ∀ k, k ≠ i → ants1[k]? = ants[k]? := by
  obtain ⟨r, hr, hlen, hframe⟩ := update_ant_frame hc hg ha
  have hilt : i < ants.length := by
    by_contra hge
    rw [List.getElem?_eq_none (by omega)] at hi
    cases hi
  refine ⟨r, hr, hlen, hframe, ants.set i r.1, ?_, List.length_set _ _ _,
    List.getElem?_set_self hilt, fun k hk => List.getElem?_set_ne (Ne.symm hk)⟩
  unfold update_ant_at
  rw [hi, Option.some_bind, hr]
  rfl

/-- C14 at the source's constants, its zero grid and its two ants, the second one ticked. -/
theorem C14_frame_witness :
    ∃ r, update_ant srcConfig ⟨700, 535, 2⟩ (zeroGrid srcConfig) = some r ∧
      r.2.length = (zeroGrid srcConfig).length ∧
      (∀ j, j ≠ (535 : Int).toNat * srcConfig.W + (700 : Int).toNat →
        r.2[j]? = (zeroGrid srcConfig)[j]?) ∧
      ∃ ants1, update_ant_at srcConfig [⟨960, 540, 0⟩, ⟨700, 535, 2⟩] 1 (zeroGrid srcConfig)
          = some (ants1, r.2) ∧
        ants1.length = [(⟨960, 540, 0⟩ : Ant), ⟨700, 535, 2⟩].length ∧
        ants1[1]? = some r.1 ∧
        ∀ k, k ≠ 1 → ants1[k]? = [(⟨960, 540, 0⟩ : Ant), ⟨700, 535, 2⟩][k]? :=
  C14_frame srcConfig [⟨960, 540, 0⟩, ⟨700, 535, 2⟩] 1 ⟨700, 535, 2⟩ (zeroGrid srcConfig)
    (by decide) (zeroGrid_wf srcConfig) rfl (by decide)

/-- C15: `update_ant` never fails on an ant that stands on the grid: the index
`y * WIDTH + x` of `get_state` and `set_state` is below `WIDTH * HEIGHT`, the index
`state % n_turns` of the rule string is below its length, the step of `move_ant` and the
sums `x % WIDTH + WIDTH`, `y % HEIGHT + HEIGHT` stay inside `int32_t`; so the tick returns
a result, and so does every tick of every round of a run of ants that start on the grid. -/
theorem C15_never_fails (c : Config) (a : Ant) (g : Grid) (n : Nat) (ants : List Ant)
    (hc : c.wf) (hg : Grid.wf c g) (ha : a.inBounds c) (hants : ∀ b ∈ ants, b.ok c) :
    cellIndex c (u32 a.x) (u32 a.y) = a.y.toNat * c.W + a.x.toNat ∧
    a.y.toNat * c.W + a.x.toNat < c.W * c.H ∧
    (∀ state, state % c.n_turns < c.turns.length) ∧
    (∀ t, ∃ a2, move_ant (turn_symbol a t) = some a2 ∧
      (-2 ^ 31 ≤ a2.x ∧ a2.x < 2 ^ 31) ∧ (-2 ^ 31 ≤ a2.y ∧ a2.y < 2 ^ 31) ∧
      (-2 ^ 31 ≤ Int.tmod a2.x c.W + c.W ∧ Int.tmod a2.x c.W + c.W < 2 ^ 31) ∧
      (-2 ^ 31 ≤ Int.tmod a2.y c.H + c.H ∧ Int.tmod a2.y c.H + c.H < 2 ^ 31)) ∧
    (∃ r, update_ant c a g = some r) ∧
    (∃ rs, run c n ants g = some rs ∧ ∀ b ∈ rs.1, b.inBounds c) := by
  obtain ⟨hidx, hlt⟩ := cellIndex_of_inBounds hc ha
  have hW : (0 : Int) < c.W := by exact_mod_cast hc.1
  have hH : (0 : Int) < c.H := by exact_mod_cast hc.2.2.1
  have hW30 : (c.W : Int) ≤ 2 ^ 30 := by exact_mod_cast hc.2.1
  have hH30 : (c.H : Int) ≤ 2 ^ 30 := by exact_mod_cast hc.2.2.2.1
  refine ⟨hidx, hlt, fun state => Nat.mod_lt _ hc.2.2.2.2.2.1, fun t => ?_, ?_, ?_⟩
  · have ha1 : (turn_symbol a t).inBounds c := by
      unfold Ant.inBounds
      rw [(turn_symbol_pos a t).1, (turn_symbol_pos a t).2]
      exact ha
    obtain ⟨a2, h2, b1, b2, b3, b4⟩ := move_ant_range hc ha1
    exact ⟨a2, h2, ⟨by omega, by omega⟩, ⟨by omega, by omega⟩,
      wrap_sum_range a2.x hW hW30, wrap_sum_range a2.y hH hH30⟩
  · obtain ⟨w, t, _, _, hu⟩ := update_ant_spec hc hg ha
    exact ⟨_, hu⟩
  · obtain ⟨rs, hrs, hok, _, _⟩ := run_ok hc n ants g hg hants
    exact ⟨rs, hrs, fun b hb => (hok b hb).1⟩

/-- C15 at the source's constants, its zero grid, its two ants and the 100 rounds of one
frame. -/
theorem C15_never_fails_witness :
    cellIndex srcConfig (u32 960) (u32 540) = (540 : Int).toNat * srcConfig.W + (960 : Int).toNat ∧
    (540 : Int).toNat * srcConfig.W + (960 : Int).toNat < srcConfig.W * srcConfig.H ∧
    (∀ state, state % srcConfig.n_turns < srcConfig.turns.length) ∧
    (∀ t, ∃ a2, move_ant (turn_symbol ⟨960, 540, 0⟩ t) = some a2 ∧
      (-2 ^ 31 ≤ a2.x ∧ a2.x < 2 ^ 31) ∧ (-2 ^ 31 ≤ a2.y ∧ a2.y < 2 ^ 31) ∧
      (-2 ^ 31 ≤ Int.tmod a2.x srcConfig.W + srcConfig.W ∧
        Int.tmod a2.x srcConfig.W + srcConfig.W < 2 ^ 31) ∧
      (-2 ^ 31 ≤ Int.tmod a2.y srcConfig.H + srcConfig.H ∧
        Int.tmod a2.y srcConfig.H + srcConfig.H < 2 ^ 31)) ∧
    (∃ r, update_ant srcConfig ⟨960, 540, 0⟩ (zeroGrid srcConfig) = some r) ∧
    (∃ rs, run srcConfig 100 [⟨960, 540, 0⟩, ⟨700, 535, 2⟩] (zeroGrid srcConfig) = some rs ∧
      ∀ b ∈ rs.1, b.inBounds srcConfig) :=
  C15_never_fails srcConfig ⟨960, 540, 0⟩ (zeroGrid srcConfig) 100
    [⟨960, 540, 0⟩, ⟨700, 535, 2⟩]
    (by decide) (zeroGrid_wf srcConfig) (by decide) (by decide)

/-- C16: under `RLRL` the turn at a cell depends on the parity of its state alone (even:
heading - 1, odd: heading + 1); so from the zero grid, for any ants and any number of
rounds, the run under `RLRL` and the run under the 2-symbol rule `RL` of the regular ant
return the same ants (positions and headings), and the states of their cells agree
modulo 2. -/
theorem C16_rlrl_is_rl (W H n : Nat) (ants : List Ant) (a : Ant) (g : Grid)
    (hc : (rlrlConfig W H).wf) (hants : ∀ b ∈ ants, b.ok (rlrlConfig W H))
    (hg : Grid.wf (rlrlConfig W H) g) (ha : a.inBounds (rlrlConfig W H)) :
    (∃ k r, get_state (rlrlConfig W H) g (u32 a.x) (u32 a.y) = some k ∧
      update_ant (rlrlConfig W H) a g = some r ∧
      (k % 2 = 0 → (r.1.dir : Int) = ((a.dir : Int) - 1) % 4) ∧
      (k % 2 = 1 → (r.1.dir : Int) = ((a.dir : Int) + 1) % 4)) ∧
    (∃ (as : List Ant) (g4 g2 : Grid),
      run (rlrlConfig W H) n ants (zeroGrid (rlrlConfig W H)) = some (as, g4) ∧
      run (rlConfig W H) n ants (zeroGrid (rlConfig W H)) = some (as, g2) ∧
      g4.length = W * H ∧ g2.length = W * H ∧
      ∀ (i w4 w2 : Nat), g4[i]? = some w4 → g2[i]? = some w2 →
        (w4 &&& 255) % 2 = (w2 &&& 255) % 2) := by
  constructor
  · obtain ⟨w, t, hw, ht, hu⟩ := update_ant_spec hc hg ha
    obtain ⟨t1, e4, _, heven, hodd⟩ := rl_symbol (W := W) (H := H) (rfl : (w &&& 255) % 2 = _)
    have ett : t = t1 := by rw [ht] at e4; exact Option.some.inj e4
    subst ett
    refine ⟨w &&& 255, _, ?_, hu, ?_, ?_⟩
    · unfold get_state
      rw [(cellIndex_of_inBounds hc ha).1, hw]
      rfl
    · intro h
      have ht' := heven h
      subst ht'
      show ((((a.dir : Int) + -1) % 4).toNat : Int) = _
      omega
    · intro h
      have ht' := hodd h
      subst ht'
      show ((((a.dir : Int) + 1) % 4).toNat : Int) = _
      omega
  · have hc2 := rlConfig_wf hc
    obtain ⟨as, g4, g2, h4, h2, hrel⟩ := rl_run hc n ants (zeroGrid (rlrlConfig W H))
      (zeroGrid (rlConfig W H)) (zeroGrid_wf _) (zeroGrid_wf _) hants (fun _ => rfl)
    obtain ⟨r4, hr4, _, _, hwf4⟩ := run_ok hc n ants _ (zeroGrid_wf _) hants
    obtain ⟨r2, hr2, _, _, hwf2⟩ := run_ok hc2 n ants _ (zeroGrid_wf _)
      (fun b hb => hants b hb)
    rw [h4] at hr4
    rw [h2] at hr2
    cases hr4
    cases hr2
    refine ⟨as, g4, g2, h4, h2, hwf4, hwf2, fun i w4 w2 e4 e2 => ?_⟩
    have h := hrel i
    rw [e4, e2] at h
    exact Option.some.inj h

/-- C16 at the source's grid, 1920 x 1080, its two ants and the 100 rounds of one frame. -/
theorem C16_rlrl_is_rl_witness :
    (∃ k r, get_state (rlrlConfig 1920 1080) (zeroGrid (rlrlConfig 1920 1080))
        (u32 960) (u32 540) = some k ∧
      update_ant (rlrlConfig 1920 1080) ⟨960, 540, 0⟩ (zeroGrid (rlrlConfig 1920 1080))
        = some r ∧
      (k % 2 = 0 → (r.1.dir : Int) = (((0 : Nat) : Int) - 1) % 4) ∧
      (k % 2 = 1 → (r.1.dir : Int) = (((0 : Nat) : Int) + 1) % 4)) ∧
    (∃ (as : List Ant) (g4 g2 : Grid),
      run (rlrlConfig 1920 1080) 100 [⟨960, 540, 0⟩, ⟨700, 535, 2⟩]
        (zeroGrid (rlrlConfig 1920 1080)) = some (as, g4) ∧
      run (rlConfig 1920 1080) 100 [⟨960, 540, 0⟩, ⟨700, 535, 2⟩]
        (zeroGrid (rlConfig 1920 1080)) = some (as, g2) ∧
      g4.length = 1920 * 1080 ∧ g2.length = 1920 * 1080 ∧
      ∀ (i w4 w2 : Nat), g4[i]? = some w4 → g2[i]? = some w2 →
        (w4 &&& 255) % 2 = (w2 &&& 255) % 2) :=
  C16_rlrl_is_rl 1920 1080 100 [⟨960, 540, 0⟩, ⟨700, 535, 2⟩] ⟨960, 540, 0⟩
    (zeroGrid (rlrlConfig 1920 1080)) (by decide) (by decide) (zeroGrid_wf _) (by decide)

/-- C17: the initial ants that `main` computes with `uint32_t` wraparound arithmetic for
`i = 0, 1` are (960, 540, Up) and (700, 535, Down); each lies in `[0,1920) x [0,1080)` and
the two stand on different cells. -/
theorem C17_initial_ants :
    init_ants srcConfig N_ANTS = [⟨960, 540, DIR.ANTUP.val⟩, ⟨700, 535, DIR.ANTDOWN.val⟩] ∧
    (∀ a ∈ init_ants srcConfig N_ANTS,
      0 ≤ a.x ∧ a.x < 1920 ∧ 0 ≤ a.y ∧ a.y < 1080 ∧ a.dir < 4) ∧
    (∀ i j, i < N_ANTS → j < N_ANTS → i ≠ j →
      ¬ ((init_ant srcConfig i).x = (init_ant srcConfig j).x ∧
        (init_ant srcConfig i).y = (init_ant srcConfig j).y)) := by
  refine ⟨by decide, by decide, ?_⟩
  intro i j hi hj hij
  have hi2 : i = 0 ∨ i = 1 := by unfold N_ANTS at hi; omega
  have hj2 : j = 0 ∨ j = 1 := by unfold N_ANTS at hj; omega
  rcases hi2 with rfl | rfl <;> rcases hj2 with rfl | rfl <;>
    first | exact absurd rfl hij | decide

/-- C18: `rgb` returns the all-zero word exactly when the normalized value
`n = (int32_t)(ratio * 256 * 6)` that the function computes (the products rounded to
`double`, the conversion defined) lies outside `[0, 1536)`: for `n` in `[0, 1536)` one of
the three channels is 255, so that the word is not 0, and for `n < 0` or `n >= 1536` no
case of the `switch` matches and the word is 0. -/
theorem C18_black_iff_outside (ratio : ℚ) (n : Int)
    (hn : cast_i32 (rgb_product ratio) = some n) :
    (rgb ratio = 0 ↔ (n < 0 ∨ 1536 ≤ n)) ∧
    (0 ≤ n → n < 1536 →
      (chan_red (rgb ratio) = 255 ∨ chan_grn (rgb ratio) = 255 ∨ chan_blu (rgb ratio) = 255) ∧
        rgb ratio ≠ 0) ∧
    ((n < 0 ∨ 1536 ≤ n) → rgb ratio = 0) := by
  have hrgb : rgb ratio = rgb_norm n := by unfold rgb; rw [(cast_i32_some hn).1]
  have hin : 0 ≤ n → n < 1536 →
      (chan_red (rgb ratio) = 255 ∨ chan_grn (rgb ratio) = 255 ∨ chan_blu (rgb ratio) = 255) ∧
        rgb ratio ≠ 0 := by
    intro h0 h1
    obtain ⟨r, g, b, q, q1, q2, q3, hd⟩ := rgb_norm_chans n h0 h1
    rw [hrgb, q1, q2, q3, q]
    constructor <;> omega
  refine ⟨⟨fun hz => ?_, fun ho => ?_⟩, hin, fun ho => ?_⟩
  · by_contra hno
    exact (hin (by omega) (by omega)).2 hz
  · rw [hrgb]
    exact rgb_norm_outside n ho
  · rw [hrgb]
    exact rgb_norm_outside n ho

/-- C18 at ratio 1/2, whose normalized value is 768. -/
theorem C18_black_iff_outside_witness :
    (rgb (1 / 2) = 0 ↔ ((768 : Int) < 0 ∨ (1536 : Int) ≤ 768)) ∧
    ((0 : Int) ≤ 768 → (768 : Int) < 1536 →
      (chan_red (rgb (1 / 2)) = 255 ∨ chan_grn (rgb (1 / 2)) = 255 ∨
        chan_blu (rgb (1 / 2)) = 255) ∧ rgb (1 / 2) ≠ 0) ∧
    (((768 : Int) < 0 ∨ (1536 : Int) ≤ 768) → rgb (1 / 2) = 0) :=
  C18_black_iff_outside (1 / 2) 768 (by decide!)

/-- C19: the ticks of two ants that stand on different cells of the grid commute: ticking
`a` and then `b` gives the same two ants and the same grid as ticking `b` and then `a`. -/
theorem C19_ticks_commute (c : Config) (a b : Ant) (g : Grid)
    (hc : c.wf) (hg : Grid.wf c g) (ha : a.inBounds c) (hb : b.inBounds c)
    (hne : ¬ (a.x = b.x ∧ a.y = b.y)) :
    ∃ a1 b1 ga gb gab, update_ant c a g = some (a1, ga) ∧ update_ant c b ga = some (b1, gab) ∧
      update_ant c b g = some (b1, gb) ∧ update_ant c a gb = some (a1, gab) := by
  obtain ⟨wa, ta, hwa, hta, hua⟩ := update_ant_spec hc hg ha
  obtain ⟨wb, tb, hwb, htb, hub⟩ := update_ant_spec hc hg hb
  obtain ⟨_, hib⟩ := cellIndex_of_inBounds hc hb
  have hbx : b.x.toNat < c.W := by have := hb.1; have := hb.2.1; omega
  have hidx : a.y.toNat * c.W + a.x.toNat ≠ b.y.toNat * c.W + b.x.toNat := by
    have h := index_ne_of_pos_ne (x := b.x.toNat) (y := b.y.toNat) ha hbx
      (fun h => hne ⟨by have := hb.1; omega, by have := hb.2.2.1; omega⟩)
    exact h
  have hga : Grid.wf c (g.set (a.y.toNat * c.W + a.x.toNat)
      (cell_word c (((wa &&& 255) % c.n_turns + 1) % c.n_turns))) := by
    show (g.set _ _).length = c.W * c.H
    rw [List.length_set]
    exact hg
  have hgb : Grid.wf c (g.set (b.y.toNat * c.W + b.x.toNat)
      (cell_word c (((wb &&& 255) % c.n_turns + 1) % c.n_turns))) := by
    show (g.set _ _).length = c.W * c.H
    rw [List.length_set]
    exact hg
  obtain ⟨tb1, htb1, hub1⟩ := update_ant_of_cell (w := wb) hc hga hb
    (by rw [List.getElem?_set_ne hidx]; exact hwb)
  obtain ⟨ta1, hta1, hua1⟩ := update_ant_of_cell (w := wa) hc hgb ha
    (by rw [List.getElem?_set_ne (Ne.symm hidx)]; exact hwa)
  have eb : tb1 = tb := by rw [htb] at htb1; exact (Option.some.inj htb1).symm
  have ea : ta1 = ta := by rw [hta] at hta1; exact (Option.some.inj hta1).symm
  subst eb
  subst ea
  refine ⟨_, _, _, _, _, hua, hub1, hub, ?_⟩
  rw [hua1, List.set_comm _ _ _ hidx]

/-- C19 at the source's constants, its zero grid and its two ants. -/
theorem C19_ticks_commute_witness :
    ∃ a1 b1 ga gb gab,
      update_ant srcConfig ⟨960, 540, 0⟩ (zeroGrid srcConfig) = some (a1, ga) ∧
      update_ant srcConfig ⟨700, 535, 2⟩ ga = some (b1, gab) ∧
      update_ant srcConfig ⟨700, 535, 2⟩ (zeroGrid srcConfig) = some (b1, gb) ∧
      update_ant srcConfig ⟨960, 540, 0⟩ gb = some (a1, gab) :=
  C19_ticks_commute srcConfig ⟨960, 540, 0⟩ ⟨700, 535, 2⟩ (zeroGrid srcConfig)
    (by decide) (zeroGrid_wf srcConfig) (by decide) (by decide) (by decide)

/-- C20: a tick is reversible on well-formed states: if two states (grid, ant), each with
the ant on the grid, a heading in `[0,4)` and every cell equal to 0 or to
`rgb (k / n_turns) | k` for a state `k` in `1 .. n_turns - 1`, are mapped by `update_ant`
to the same state, then the two states are equal.  It holds for every rule string of at
most 256 symbols, `RLRL` among them. -/
theorem C20_tick_injective (c : Config) (a1 a2 : Ant) (g1 g2 : Grid)
    (hc : c.wf) (hR : c.n_turns ≤ 256)
    (hg1 : Grid.wf c g1) (hg2 : Grid.wf c g2) (ha1 : a1.ok c) (ha2 : a2.ok c)
    (hw1 : ∀ w ∈ g1, w = 0 ∨
      ∃ k, 0 < k ∧ k < c.n_turns ∧ w = rgb ((k : ℚ) / (c.n_turns : ℚ)) ||| k)
    (hw2 : ∀ w ∈ g2, w = 0 ∨
      ∃ k, 0 < k ∧ k < c.n_turns ∧ w = rgb ((k : ℚ) / (c.n_turns : ℚ)) ||| k)
    (heq : update_ant c a1 g1 = update_ant c a2 g2) :
    (∃ r, update_ant c a1 g1 = some r) ∧ a1 = a2 ∧ g1 = g2 := by
  obtain ⟨w1, t1, hwc1, ht1, hu1⟩ := update_ant_spec hc hg1 ha1.1
  obtain ⟨w2, t2, hwc2, ht2, hu2⟩ := update_ant_spec hc hg2 ha2.1
  refine ⟨⟨_, hu1⟩, ?_⟩
  rw [hu1, hu2] at heq
  have hpair := Option.some.inj heq
  have hn : neighbour c (turn_symbol a1 t1) = neighbour c (turn_symbol a2 t2) :=
    congrArg Prod.fst hpair
  have hgr : g1.set (a1.y.toNat * c.W + a1.x.toNat)
        (cell_word c (((w1 &&& 255) % c.n_turns + 1) % c.n_turns)) =
      g2.set (a2.y.toNat * c.W + a2.x.toNat)
        (cell_word c (((w2 &&& 255) % c.n_turns + 1) % c.n_turns)) :=
    congrArg Prod.snd hpair
  have hW : (0 : Int) < c.W := by exact_mod_cast hc.1
  have hH : (0 : Int) < c.H := by exact_mod_cast hc.2.2.1
  have hR0 : 0 < c.n_turns := hc.2.2.2.2.2.1
  obtain ⟨hx1, hx1', hy1, hy1'⟩ := ha1.1
  obtain ⟨hx2, hx2', hy2, hy2'⟩ := ha2.1
  -- the headings after the turn, and from them the positions before the move
  have hd0 := congrArg Ant.dir hn
  have hd : (turn_symbol a1 t1).dir = (turn_symbol a2 t2).dir := hd0
  have hnx : ((turn_symbol a1 t1).x + (dxy (turn_symbol a1 t1).dir).1) % (c.W : Int) =
      ((turn_symbol a2 t2).x + (dxy (turn_symbol a2 t2).dir).1) % (c.W : Int) :=
    congrArg Ant.x hn
  have hny : ((turn_symbol a1 t1).y + (dxy (turn_symbol a1 t1).dir).2) % (c.H : Int) =
      ((turn_symbol a2 t2).y + (dxy (turn_symbol a2 t2).dir).2) % (c.H : Int) :=
    congrArg Ant.y hn
  rw [(turn_symbol_pos a1 t1).1, (turn_symbol_pos a2 t2).1, hd] at hnx
  rw [(turn_symbol_pos a1 t1).2, (turn_symbol_pos a2 t2).2, hd] at hny
  have ex : a1.x = a2.x := emod_add_cancel hW hx1 hx1' hx2 hx2' hnx
  have ey : a1.y = a2.y := emod_add_cancel hH hy1 hy1' hy2 hy2' hny
  -- the cell that was written
  obtain ⟨_, hlt⟩ := cellIndex_of_inBounds hc ha1.1
  have hlen1 : a1.y.toNat * c.W + a1.x.toNat < g1.length := by rw [hg1]; exact hlt
  have hlen2 : a1.y.toNat * c.W + a1.x.toNat < g2.length := by rw [hg2]; exact hlt
  rw [← ex, ← ey] at hgr hwc2
  have hv : cell_word c (((w1 &&& 255) % c.n_turns + 1) % c.n_turns) =
      cell_word c (((w2 &&& 255) % c.n_turns + 1) % c.n_turns) := by
    have h := congrArg (fun l : Grid => l[a1.y.toNat * c.W + a1.x.toNat]?) hgr
    simp only [List.getElem?_set_self hlen1, List.getElem?_set_self hlen2] at h
    exact Option.some.inj h
  have hlow : ∀ s, s < c.n_turns → cell_word c s &&& 255 = s := by
    intro s hs
    obtain ⟨col, hcol, _⟩ := cell_word_eq c (lt_of_lt_of_le hs hR)
    rw [hcol, and_255]
    omega
  have hs : ((w1 &&& 255) % c.n_turns + 1) % c.n_turns =
      ((w2 &&& 255) % c.n_turns + 1) % c.n_turns := by
    rw [← hlow _ (Nat.mod_lt _ hR0), hv, hlow _ (Nat.mod_lt _ hR0)]
  obtain ⟨hk1, hcw1⟩ := cell_of_wellFormed hc hR (hw1 w1 (List.getElem?_mem hwc1))
  obtain ⟨hk2, hcw2⟩ := cell_of_wellFormed hc hR (hw2 w2 (List.getElem?_mem hwc2))
  rw [Nat.mod_eq_of_lt hk1, Nat.mod_eq_of_lt hk2] at hs
  have hk : w1 &&& 255 = w2 &&& 255 := succ_mod_inj hk1 hk2 hs
  have hww : w1 = w2 := by rw [hcw1, hcw2, hk]
  -- the rule symbol and the heading before the turn
  have htt : t1 = t2 := by
    rw [hk, ht2] at ht1
    exact (Option.some.inj ht1).symm
  subst htt
  have edir : a1.dir = a2.dir := turn_symbol_dir_inj t1 ha1.2 ha2.2 hd
  have ea : a1 = a2 := by
    cases a1
    cases a2
    simp only [Ant.mk.injEq]
    exact ⟨ex, ey, edir⟩
  refine ⟨ea, List.ext_getElem? fun j => ?_⟩
  by_cases hj : j = a1.y.toNat * c.W + a1.x.toNat
  · rw [hj, hwc1, hwc2, hww]
  · have h := congrArg (fun l : Grid => l[j]?) hgr
    simp only [List.getElem?_set_ne (Ne.symm hj)] at h
    exact h

/-- C20 at the source's constants: its first ant on the zero grid, twice. -/
theorem C20_tick_injective_witness :
    (∃ r, update_ant srcConfig ⟨960, 540, 0⟩ (zeroGrid srcConfig) = some r) ∧
      (⟨960, 540, 0⟩ : Ant) = ⟨960, 540, 0⟩ ∧ zeroGrid srcConfig = zeroGrid srcConfig :=
  C20_tick_injective srcConfig ⟨960, 540, 0⟩ ⟨960, 540, 0⟩ (zeroGrid srcConfig)
    (zeroGrid srcConfig) (by decide) (by decide) (zeroGrid_wf srcConfig)
    (zeroGrid_wf srcConfig) (by decide) (by decide)
    (zeroGrid_cells srcConfig _ (Or.inl rfl)) (zeroGrid_cells srcConfig _ (Or.inl rfl)) rfl

end LangstonAnt
